import Mathlib

/-
Verification of the dhat heap/ad-hoc profiler core (src/lib.rs).

Shallow embedding notes:
* Machine integers (`usize`, `u64`) are modelled as `Nat`; the proofs establish
  the invariants that rule out underflow at every subtraction the code performs.
* `FxHashMap` is modelled as an association list with the map's key equality;
  `insert` is "cons after erase", `remove` is "lookup and erase".
* `Instant` / `Duration` are abstract tick counts (`Nat`).
* The pluggable collaborators (the wrapped system allocator and the backtrace
  capture primitive) are modelled as event inputs: each intercepted operation
  carries the pointer returned by the inner allocator (`none` = null) and the
  captured backtrace.
* A ghost map `sizes : Nat → Nat` records, per the `GlobalAlloc` contract, the
  size each currently-allocated address was given; well-formedness of an event
  trace (`WFEvent`) states exactly that contract: layouts passed to
  `dealloc`/`realloc` match the allocation, sizes are non-zero, and the inner
  allocator returns fresh (non-live) addresses.
-/

namespace Dhat

/-- A captured stack frame: an instruction pointer plus symbol-resolution
metadata that equality and hashing must ignore. -/
structure Frame where
  ip : Nat
  symData : Nat
deriving DecidableEq

/-- A captured backtrace: an ordered sequence of frames
(`Backtrace(frames.into())` in the source). -/
structure Backtrace where
  frames : List Frame
deriving DecidableEq

/-- The loop body of `impl PartialEq for Backtrace`: walk both frame lists in
lockstep comparing only the `ip` of each frame; unequal ips (including one
list ending before the other) give `false`, both ending gives `true`. -/
def framesBeq : List Frame → List Frame → Bool
  | [], [] => true
  | f1 :: t1, f2 :: t2 => f1.ip == f2.ip && framesBeq t1 t2
  | _, _ => false

/-- `impl PartialEq for Backtrace`. -/
def Backtrace.beq (b1 b2 : Backtrace) : Bool :=
  framesBeq b1.frames b2.frames

/-- `impl Hash for Backtrace`: the sequence of values fed to the hasher is
exactly the ip of each frame, in order. -/
def Backtrace.hashInput (b : Backtrace) : List Nat :=
  b.frames.map Frame.ip

/-- Association-list lookup (models `HashMap::get` for `usize` keys). -/
def lookupK : List (Nat × α) → Nat → Option α
  | [], _ => none
  | (k, v) :: t, p => if k = p then some v else lookupK t p

/-- Association-list key removal (models the mutation done by
`HashMap::remove`; with no-duplicate keys, filtering equals removing the one
entry). -/
def eraseK (l : List (Nat × α)) (p : Nat) : List (Nat × α) :=
  l.filter (fun kv => kv.1 != p)

/-- Pointwise update of the ghost size map. -/
def updateF (f : Nat → Nat) (p v : Nat) : Nat → Nat :=
  fun a => if a = p then v else f a

/-- A change in size, used for `realloc` (struct `Delta`). -/
structure Delta where
  shrinking : Bool
  size : Nat
deriving DecidableEq

/-- `Delta::new`. -/
def Delta.new (old_size new_size : Nat) : Delta :=
  if new_size < old_size then
    { shrinking := true, size := old_size - new_size }
  else
    { shrinking := false, size := new_size - old_size }

/-- `impl AddAssign<Delta> for usize`: `x += delta`. -/
def addDelta (x : Nat) (d : Delta) : Nat :=
  if d.shrinking then x - d.size else x + d.size

/-- Per-program-point heap statistics (struct `HeapPpInfo`, all fields
`Default`-initialised to zero). -/
structure HeapPpInfo where
  curr_blocks : Nat := 0
  curr_bytes : Nat := 0
  max_blocks : Nat := 0
  max_bytes : Nat := 0
  at_tgmax_blocks : Nat := 0
  at_tgmax_bytes : Nat := 0
  total_lifetimes_duration : Nat := 0
deriving DecidableEq

/-- Per-program-point statistics (struct `PpInfo`). -/
structure PpInfo where
  total_blocks : Nat
  total_bytes : Nat
  heap : Option HeapPpInfo
deriving DecidableEq

/-- `PpInfo::new_heap`. -/
def PpInfo.new_heap : PpInfo :=
  { total_blocks := 0, total_bytes := 0, heap := some {} }

/-- `PpInfo::new_ad_hoc`. -/
def PpInfo.new_ad_hoc : PpInfo :=
  { total_blocks := 0, total_bytes := 0, heap := none }

/-- A live allocation record (struct `LiveBlock`). -/
structure LiveBlock where
  pp_info_idx : Nat
  allocation_instant : Nat
deriving DecidableEq

/-- Heap-mode global state (struct `HeapGlobals`). -/
structure HeapGlobals where
  live_blocks : List (Nat × LiveBlock)
  curr_blocks : Nat
  curr_bytes : Nat
  max_blocks : Nat
  max_bytes : Nat
  tgmax_instant : Nat
deriving DecidableEq

/-- `HeapGlobals::new`. -/
def HeapGlobals.new : HeapGlobals :=
  { live_blocks := [], curr_blocks := 0, curr_bytes := 0,
    max_blocks := 0, max_bytes := 0, tgmax_instant := 0 }

/-- Top/bottom trim marker (enum `TB`). -/
inductive TB where
  | Top
  | Bottom
deriving DecidableEq

/-- The profiler's global state (struct `Globals`). -/
structure Globals where
  testing : Bool
  file_name : String
  trim_backtraces : Option Nat
  eprint_json : Bool
  start_bt : Backtrace
  frames_to_trim : Option (List (Nat × TB))
  start_instant : Nat
  pp_infos : List PpInfo
  backtraces : List (Backtrace × Nat)
  total_blocks : Nat
  total_bytes : Nat
  heap : Option HeapGlobals
deriving DecidableEq

/-- Lookup in the `Backtrace → usize` map, using the backtrace's own equality
(ip sequences only). -/
def lookupBt : List (Backtrace × Nat) → Backtrace → Option Nat
  | [], _ => none
  | (k, v) :: t, bt => if Backtrace.beq bt k then some v else lookupBt t bt

/-- `Globals::get_pp_info`: get the `PpInfo` index for this backtrace,
appending a fresh record if the backtrace has not been seen. -/
def Globals.get_pp_info (g : Globals) (bt : Backtrace) (new : PpInfo) :
    Nat × Globals :=
  match lookupBt g.backtraces bt with
  | some idx => (idx, g)
  | none =>
    (g.pp_infos.length,
      { g with
        pp_infos := g.pp_infos ++ [new]
        backtraces := (bt, g.pp_infos.length) :: g.backtraces })

/-- `Globals::record_block`: insert a live block record for `ptr` (the source
asserts the old entry was `None`; well-formed traces guarantee it). -/
def Globals.record_block (g : Globals) (ptr pp_info_idx now : Nat) : Globals :=
  match g.heap with
  | some h =>
    { g with
      heap := some
        { h with
          live_blocks :=
            (ptr, { pp_info_idx := pp_info_idx, allocation_instant := now })
              :: eraseK h.live_blocks ptr } }
  | none => g

/-- `HashMap::remove` on the live-block table: return the removed record and
the shrunken table. -/
def Globals.removeLiveBlock (g : Globals) (ptr : Nat) :
    Option LiveBlock × Globals :=
  match g.heap with
  | some h =>
    (lookupK h.live_blocks ptr,
      { g with heap := some { h with live_blocks := eraseK h.live_blocks ptr } })
  | none => (none, g)

/-- `PpInfo::update_counts_for_alloc`. -/
def PpInfo.update_counts_for_alloc (pp : PpInfo) (size : Nat)
    (delta : Option Delta) : PpInfo :=
  let pp := { pp with total_blocks := pp.total_blocks + 1,
                      total_bytes := pp.total_bytes + size }
  match pp.heap with
  | some h =>
    let h :=
      match delta with
      | some d => { h with curr_blocks := h.curr_blocks + 0,
                           curr_bytes := addDelta h.curr_bytes d }
      | none => { h with curr_blocks := h.curr_blocks + 1,
                         curr_bytes := h.curr_bytes + size }
    let h :=
      if h.curr_bytes ≥ h.max_bytes then
        { h with max_blocks := h.curr_blocks, max_bytes := h.curr_bytes }
      else h
    { pp with heap := some h }
  | none => pp

/-- `PpInfo::update_counts_for_dealloc`. -/
def PpInfo.update_counts_for_dealloc (pp : PpInfo) (size alloc_duration : Nat) :
    PpInfo :=
  match pp.heap with
  | some h =>
    { pp with
      heap := some
        { h with
          curr_blocks := h.curr_blocks - 1
          curr_bytes := h.curr_bytes - size
          total_lifetimes_duration := h.total_lifetimes_duration + alloc_duration } }
  | none => pp

/-- `PpInfo::update_counts_for_ad_hoc_event`. -/
def PpInfo.update_counts_for_ad_hoc_event (pp : PpInfo) (weight : Nat) : PpInfo :=
  { pp with total_blocks := pp.total_blocks + 1,
            total_bytes := pp.total_bytes + weight }

/-- Replace the element at index `i` (models `self.pp_infos[idx] = ...`
style in-place mutation). -/
def modifyAt : List α → Nat → (α → α) → List α
  | [], _, _ => []
  | x :: t, 0, f => f x :: t
  | x :: t, n + 1, f => x :: modifyAt t n f

/-- `Globals::update_counts_for_alloc`: bump totals, update current counts
(plain alloc or realloc delta), take the global peak with a `≥` comparison,
then update the PP's own counts. -/
def Globals.update_counts_for_alloc (g : Globals) (pp_info_idx size : Nat)
    (delta : Option Delta) (now : Nat) : Globals :=
  let g := { g with total_blocks := g.total_blocks + 1,
                    total_bytes := g.total_bytes + size }
  match g.heap with
  | some h =>
    let h :=
      match delta with
      | some d => { h with curr_blocks := h.curr_blocks + 0,
                           curr_bytes := addDelta h.curr_bytes d }
      | none => { h with curr_blocks := h.curr_blocks + 1,
                         curr_bytes := h.curr_bytes + size }
    let h :=
      if h.curr_bytes ≥ h.max_bytes then
        { h with max_blocks := h.curr_blocks, max_bytes := h.curr_bytes,
                 tgmax_instant := now }
      else h
    { g with
      heap := some h
      pp_infos := modifyAt g.pp_infos pp_info_idx
        (fun pp => pp.update_counts_for_alloc size delta) }
  | none => g

/-- `Globals::update_counts_for_dealloc`. -/
def Globals.update_counts_for_dealloc (g : Globals)
    (pp_info_idx size alloc_duration : Nat) : Globals :=
  match g.heap with
  | some h =>
    { g with
      heap := some { h with curr_blocks := h.curr_blocks - 1,
                            curr_bytes := h.curr_bytes - size }
      pp_infos := modifyAt g.pp_infos pp_info_idx
        (fun pp => pp.update_counts_for_dealloc size alloc_duration) }
  | none => g

/-- The per-PP snapshot taken by `check_for_global_peak`. -/
def PpInfo.snapshot_at_tgmax (pp : PpInfo) : PpInfo :=
  { pp with
    heap := pp.heap.map fun h =>
      { h with at_tgmax_blocks := h.curr_blocks, at_tgmax_bytes := h.curr_bytes } }

/-- `Globals::check_for_global_peak`: if `curr_bytes` is at the recorded
global peak, copy every PP's current counts into its `at_tgmax` fields. -/
def Globals.check_for_global_peak (g : Globals) : Globals :=
  match g.heap with
  | some h =>
    if h.curr_bytes = h.max_bytes then
      { g with pp_infos := g.pp_infos.map PpInfo.snapshot_at_tgmax }
    else g
  | none => g

/-- Heap statistics snapshot (struct `HeapStats`). -/
structure HeapStats where
  total_blocks : Nat
  total_bytes : Nat
  curr_blocks : Nat
  curr_bytes : Nat
  max_blocks : Nat
  max_bytes : Nat
deriving DecidableEq

/-- Ad hoc statistics snapshot (struct `AdHocStats`). -/
structure AdHocStats where
  total_events : Nat
  total_units : Nat
deriving DecidableEq

/-- `Globals::get_heap_stats`; the `panic!` is modelled as `Except.error`
carrying the exact panic string. -/
def Globals.get_heap_stats (g : Globals) : Except String HeapStats :=
  match g.heap with
  | some heap =>
    .ok { total_blocks := g.total_blocks
          total_bytes := g.total_bytes
          curr_blocks := heap.curr_blocks
          curr_bytes := heap.curr_bytes
          max_blocks := heap.max_blocks
          max_bytes := heap.max_bytes }
  | none => .error "dhat: getting heap stats while doing ad hoc profiling"

/-- `Globals::get_ad_hoc_stats`. -/
def Globals.get_ad_hoc_stats (g : Globals) : Except String AdHocStats :=
  match g.heap with
  | none => .ok { total_events := g.total_blocks, total_units := g.total_bytes }
  | some _ => .error "dhat: getting ad hoc stats while doing heap profiling"

/-- The lifecycle phase (enum `Phase<Globals>`). -/
inductive Phase where
  | Ready
  | Running (g : Globals)
  | PostAssert
deriving DecidableEq

/-- `HeapStats::get`. -/
def HeapStats.get (phase : Phase) : Except String HeapStats :=
  match phase with
  | .Ready => .error "dhat: getting heap stats when no profiler is running"
  | .Running g => g.get_heap_stats
  | .PostAssert => .error "dhat: getting heap stats after the profiler has asserted"

/-- `AdHocStats::get`. -/
def AdHocStats.get (phase : Phase) : Except String AdHocStats :=
  match phase with
  | .Ready => .error "dhat: getting ad hoc stats when no profiler is running"
  | .Running g => g.get_ad_hoc_stats
  | .PostAssert => .error "dhat: getting ad hoc stats after the profiler has asserted"

/-- Outcome of `check_assert_condition`: the phase afterwards, the returned
boolean, and whether `Globals::finish` emitted the report. -/
structure AssertOutcome where
  phase : Phase
  ret : Bool
  emitted : Bool
deriving DecidableEq

/-- `check_assert_condition`: panics (modelled as `Except.error`) outside
`Running`-with-`testing`; otherwise returns `false` when the condition holds
and transitions to `PostAssert` (emitting the report) when it fails. -/
def check_assert_condition (phase : Phase) (cond : Bool) :
    Except String AssertOutcome :=
  match phase with
  | .Ready => .error "dhat: asserting when no profiler is running"
  | .Running g =>
    if !g.testing then
      .error "dhat: asserting while not in testing mode"
    else if cond then
      .ok { phase := .Running g, ret := false, emitted := false }
    else
      .ok { phase := .PostAssert, ret := true, emitted := true }
  | .PostAssert => .error "dhat: asserting after the profiler has asserted"

/-- `<Alloc as GlobalAlloc>::alloc` (the outermost, non-re-entrant path):
the inner allocator's return is `sysRet` (`none` = null pointer, propagated
without any recording); bookkeeping happens only when the phase is `Running`
in heap mode. Returns the new phase and the returned pointer. -/
def Alloc.alloc (phase : Phase) (size : Nat) (sysRet : Option Nat)
    (bt : Backtrace) (now : Nat) : Phase × Option Nat :=
  match sysRet with
  | none => (phase, none)
  | some ptr =>
    match phase with
    | .Running g =>
      match g.heap with
      | some _ =>
        let (pp_info_idx, g) := g.get_pp_info bt PpInfo.new_heap
        let g := g.record_block ptr pp_info_idx now
        let g := g.update_counts_for_alloc pp_info_idx size none now
        (.Running g, some ptr)
      | none => (.Running g, some ptr)
    | ph => (ph, some ptr)

/-- `<Alloc as GlobalAlloc>::realloc`: null from the inner allocator is
propagated without recording; otherwise, when running in heap mode, a
shrinking realloc first checks for a global peak, then the old live entry is
removed — if present the block keeps its PP and the counters move by the
delta, if absent the operation is treated as a fresh alloc of `new_size`. -/
def Alloc.realloc (phase : Phase) (old_ptr old_size new_size : Nat)
    (sysRet : Option Nat) (bt : Backtrace) (now : Nat) : Phase × Option Nat :=
  match sysRet with
  | none => (phase, none)
  | some new_ptr =>
    match phase with
    | .Running g =>
      match g.heap with
      | some _ =>
        let delta := Delta.new old_size new_size
        let g := if delta.shrinking then g.check_for_global_peak else g
        let (live_block, g) := g.removeLiveBlock old_ptr
        let (pp_info_idx, deltaOpt, g) :=
          match live_block with
          | some lb => (lb.pp_info_idx, some delta, g)
          | none =>
            let (idx, g) := g.get_pp_info bt PpInfo.new_heap
            (idx, none, g)
        let g := g.record_block new_ptr pp_info_idx now
        let g := g.update_counts_for_alloc pp_info_idx new_size deltaOpt now
        (.Running g, some new_ptr)
      | none => (.Running g, some new_ptr)
    | ph => (ph, some new_ptr)

/-- `<Alloc as GlobalAlloc>::dealloc`: when running in heap mode, remove the
live entry; if it was present, check for a global peak and update the
counters, otherwise ignore the event entirely. -/
def Alloc.dealloc (phase : Phase) (ptr size now : Nat) : Phase :=
  match phase with
  | .Running g =>
    match g.heap with
    | some _ =>
      let (removed, g) := g.removeLiveBlock ptr
      match removed with
      | some lb =>
        let g := g.check_for_global_peak
        let alloc_duration := now - lb.allocation_instant
        let g := g.update_counts_for_dealloc lb.pp_info_idx size alloc_duration
        .Running g
      | none => .Running g
    | none => .Running g
  | ph => ph

/-- An intercepted heap event, carrying the collaborators' outputs: the inner
allocator's returned pointer and the captured backtrace. -/
inductive Event where
  | alloc (size : Nat) (sysRet : Option Nat) (bt : Backtrace) (now : Nat)
  | realloc (old_ptr old_size new_size : Nat) (sysRet : Option Nat)
      (bt : Backtrace) (now : Nat)
  | dealloc (ptr size now : Nat)
deriving DecidableEq

/-- Dispatch one intercepted event to the interceptor. -/
def stepPhase (ph : Phase) : Event → Phase
  | .alloc size sysRet bt now => (Alloc.alloc ph size sysRet bt now).1
  | .realloc o os ns sysRet bt now => (Alloc.realloc ph o os ns sysRet bt now).1
  | .dealloc p size now => Alloc.dealloc ph p size now

/-- Ghost update of the address-to-size map: a recorded (re)allocation at `p`
makes the size of `p` the new size. -/
def ghostStep (sizes : Nat → Nat) : Event → (Nat → Nat)
  | .alloc size (some p) _ _ => updateF sizes p size
  | .realloc _ _ ns (some p) _ _ => updateF sizes p ns
  | _ => sizes

/-- A system state: the profiler phase plus the ghost size map. -/
def SysState := Phase × (Nat → Nat)

/-- One step of the whole system. -/
def sysStep (s : SysState) (e : Event) : SysState :=
  (stepPhase s.1 e, ghostStep s.2 e)

/-- The live-block table visible in a phase (empty unless running in heap
mode). -/
def liveOf : Phase → List (Nat × LiveBlock)
  | .Running g =>
    match g.heap with
    | some h => h.live_blocks
    | none => []
  | _ => []

/-- The `GlobalAlloc` usage contract for one event: sizes are non-zero, the
layout passed to `dealloc`/`realloc` for a tracked block matches the size it
was allocated with, and the inner allocator returns fresh addresses. -/
def WFEvent (s : SysState) : Event → Bool
  | .alloc size sysRet _ _ =>
    decide (0 < size) &&
      (match sysRet with
       | some p => (lookupK (liveOf s.1) p).isNone
       | none => true)
  | .realloc old_ptr old_size new_size sysRet _ _ =>
    decide (0 < old_size) && decide (0 < new_size) &&
      (match lookupK (liveOf s.1) old_ptr with
       | some _ => s.2 old_ptr == old_size
       | none => true) &&
      (match sysRet with
       | some p => (lookupK (eraseK (liveOf s.1) old_ptr) p).isNone
       | none => true)
  | .dealloc p size _ =>
    match lookupK (liveOf s.1) p with
    | some _ => s.2 p == size
    | none => true

/-- Well-formedness of a whole event trace from a state. -/
def WFTrace : SysState → List Event → Bool
  | _, [] => true
  | s, e :: es => WFEvent s e && WFTrace (sysStep s e) es

/-- Run a trace. -/
def runTrace (s : SysState) (es : List Event) : SysState :=
  es.foldl sysStep s

/-- All states reached while running a trace (initial state included). -/
def traceStates (s : SysState) : List Event → List SysState
  | [] => [s]
  | e :: es => s :: traceStates (sysStep s e) es

/-- `Globals::new` for a heap-mode profiler with the default configuration
(the start backtrace and clock origin are collaborator inputs, fixed here). -/
def initGlobals : Globals :=
  { testing := true
    file_name := "dhat-heap.json"
    trim_backtraces := some 10
    eprint_json := false
    start_bt := { frames := [] }
    frames_to_trim := none
    start_instant := 0
    pp_infos := []
    backtraces := []
    total_blocks := 0
    total_bytes := 0
    heap := some HeapGlobals.new }

/-- The initial system state: a heap-mode profiler that has just started
running, with an empty ghost size map. -/
def initState : SysState := (.Running initGlobals, fun _ => 0)

/-- Projections used to state the claims. -/
def heapOf : Phase → Option HeapGlobals
  | .Running g => g.heap
  | _ => none

def currBytesOf (ph : Phase) : Nat :=
  match heapOf ph with
  | some h => h.curr_bytes
  | none => 0

def currBlocksOf (ph : Phase) : Nat :=
  match heapOf ph with
  | some h => h.curr_blocks
  | none => 0

def maxBytesOf (ph : Phase) : Nat :=
  match heapOf ph with
  | some h => h.max_bytes
  | none => 0

def maxBlocksOf (ph : Phase) : Nat :=
  match heapOf ph with
  | some h => h.max_blocks
  | none => 0

def totalBlocksOf : Phase → Nat
  | .Running g => g.total_blocks
  | _ => 0

def totalBytesOf : Phase → Nat
  | .Running g => g.total_bytes
  | _ => 0

def ppInfosOf : Phase → List PpInfo
  | .Running g => g.pp_infos
  | _ => []

/-- True iff the phase is `Running` in heap mode. -/
def isRunningHeap : Phase → Bool
  | .Running g => g.heap.isSome
  | _ => false

/-- Sum of the (ghost) sizes of the blocks in a live-block table. -/
def liveBytes (sizes : Nat → Nat) (live : List (Nat × LiveBlock)) : Nat :=
  (live.map (fun kv => sizes kv.1)).sum

/-- Sum of the (ghost) sizes of the live blocks attributed to PP `i`. -/
def ppBytes (sizes : Nat → Nat) (live : List (Nat × LiveBlock)) (i : Nat) : Nat :=
  ((live.filter (fun kv => kv.2.pp_info_idx == i)).map (fun kv => sizes kv.1)).sum

/-- Number of live blocks attributed to PP `i`. -/
def ppBlocks (live : List (Nat × LiveBlock)) (i : Nat) : Nat :=
  (live.filter (fun kv => kv.2.pp_info_idx == i)).length

/-- Per-PP projections (zero when the heap part is absent). -/
def ppCurrBytes (pp : PpInfo) : Nat :=
  match pp.heap with
  | some h => h.curr_bytes
  | none => 0

def ppCurrBlocks (pp : PpInfo) : Nat :=
  match pp.heap with
  | some h => h.curr_blocks
  | none => 0

def ppMaxBytes (pp : PpInfo) : Nat :=
  match pp.heap with
  | some h => h.max_bytes
  | none => 0

def ppAtTgmaxBytes (pp : PpInfo) : Nat :=
  match pp.heap with
  | some h => h.at_tgmax_bytes
  | none => 0

def ppAtTgmaxBytesAt (ph : Phase) (i : Nat) : Nat :=
  match (ppInfosOf ph).get? i with
  | some pp => ppAtTgmaxBytes pp
  | none => 0

def ppCurrBlocksAt (ph : Phase) (i : Nat) : Nat :=
  match (ppInfosOf ph).get? i with
  | some pp => ppCurrBlocks pp
  | none => 0

def ppCurrBytesAt (ph : Phase) (i : Nat) : Nat :=
  match (ppInfosOf ph).get? i with
  | some pp => ppCurrBytes pp
  | none => 0

/-- Insert into the trim map, replacing any previous binding
(`HashMap::insert`). -/
def insertKey (m : List (Nat × TB)) (k : Nat) (v : TB) : List (Nat × TB) :=
  (k, v) :: eraseK m k

/-- `HashMap::retain` keeping only markers equal to `keep`. -/
def retainTB (keep : TB) (m : List (Nat × TB)) : List (Nat × TB) :=
  m.filter (fun kv => kv.2 == keep)

/-- One lockstep walk of `Backtrace::get_frames_to_trim` (both loops have this
shape; the top walk runs it on the frame lists, the bottom walk on their
reverses). Stepping while the ips are equal inserts `mark`; reaching the last
frame of either list discards everything but `keep`. -/
def walkLoop (mark keep : TB) :
    List (Nat × TB) → List Frame → List Frame → List (Nat × TB)
  | m, f1 :: t1, f2 :: t2 =>
    if t1.isEmpty || t2.isEmpty then retainTB keep m
    else if f1.ip = f2.ip then walkLoop mark keep (insertKey m f1.ip mark) t1 t2
    else m
  | m, _, _ => m

/-- `Backtrace::get_frames_to_trim`: the top walk marks lockstep-equal ips as
`Top` (discarding the whole top set if it would consume a stack), then the
bottom walk does the same from the other end with `Bottom`. -/
def Backtrace.get_frames_to_trim (bt start_bt : Backtrace) : List (Nat × TB) :=
  let m := walkLoop .Top .Bottom [] bt.frames start_bt.frames
  walkLoop .Bottom .Top m bt.frames.reverse start_bt.frames.reverse

/-- Length of the longest common prefix of two ip lists. -/
def cpl : List Nat → List Nat → Nat
  | a :: t1, b :: t2 => if a = b then cpl t1 t2 + 1 else 0
  | _, _ => 0

/-- The condition under which a lockstep walk would consume an entire stack:
the lists agree all the way to the last index of the shorter one. -/
def trimDiscard (l1 l2 : List Nat) : Prop :=
  min l1.length l2.length - 1 ≤ cpl l1 l2

instance (l1 l2 : List Nat) : Decidable (trimDiscard l1 l2) :=
  inferInstanceAs (Decidable (_ ≤ _))

/-- Invariant of one program point record: it is a heap PP whose current
counts are the sums over its live blocks and whose counters are ordered
`total_bytes ≥ max_bytes ≥ curr_bytes`. -/
def PpInv (sizes : Nat → Nat) (live : List (Nat × LiveBlock)) (i : Nat)
    (pp : PpInfo) : Prop :=
  ∃ hp, pp.heap = some hp ∧
    hp.curr_bytes = ppBytes sizes live i ∧
    hp.curr_blocks = ppBlocks live i ∧
    hp.curr_bytes ≤ hp.max_bytes ∧
    hp.max_bytes ≤ pp.total_bytes

/-- The data-model invariant of a running heap-mode profiler. -/
structure InvG (g : Globals) (sizes : Nat → Nat) (h : HeapGlobals) : Prop where
  curr_bytes_eq : h.curr_bytes = liveBytes sizes h.live_blocks
  curr_blocks_eq : h.curr_blocks = h.live_blocks.length
  nodupKeys : (h.live_blocks.map Prod.fst).Nodup
  live_pos : ∀ kv ∈ h.live_blocks, 0 < sizes kv.1
  live_idx : ∀ kv ∈ h.live_blocks, kv.2.pp_info_idx < g.pp_infos.length
  bt_idx : ∀ kv ∈ g.backtraces, kv.2 < g.pp_infos.length
  max_ge : h.curr_bytes ≤ h.max_bytes
  tie : h.curr_bytes = h.max_bytes → h.curr_blocks = h.max_blocks
  pp_inv : ∀ i pp, g.pp_infos[i]? = some pp → PpInv sizes h.live_blocks i pp

/-- The system invariant: the phase is `Running` in heap mode and `InvG`
holds. -/
def Inv (s : SysState) : Prop :=
  ∃ g h, s.1 = .Running g ∧ g.heap = some h ∧ InvG g s.2 h

/-- Zero out the `at_tgmax` snapshot fields (used to compare states modulo
the peak-snapshot routine, claim C3). -/
def scrubHp (hp : HeapPpInfo) : HeapPpInfo :=
  { hp with at_tgmax_blocks := 0, at_tgmax_bytes := 0 }

def scrubPp (pp : PpInfo) : PpInfo :=
  { pp with heap := pp.heap.map scrubHp }

def scrubG (g : Globals) : Globals :=
  { g with pp_infos := g.pp_infos.map scrubPp }

def scrubPhase : Phase → Phase
  | .Running g => .Running (scrubG g)
  | ph => ph

/-! ### Association-list lemmas -/

theorem lookupK_eq_none_iff {α : Type} (l : List (Nat × α)) (p : Nat) :
    lookupK l p = none ↔ p ∉ l.map Prod.fst := by
  induction l with
  | nil => simp [lookupK]
  | cons kv t ih =>
    obtain ⟨k, v⟩ := kv
    by_cases hk : k = p <;> simp [lookupK, hk, ih, fun h => Ne.symm h]

theorem eraseK_eq_of_lookup_none {α : Type} {l : List (Nat × α)} {p : Nat}
    (h : lookupK l p = none) : eraseK l p = l := by
  induction l with
  | nil => rfl
  | cons kv t ih =>
    obtain ⟨k, v⟩ := kv
    simp only [lookupK] at h
    by_cases hk : k = p
    · rw [if_pos hk] at h
      exact absurd h (by simp)
    · rw [if_neg hk] at h
      have hcond : (k != p) = true := by simpa [bne_iff_ne] using hk
      simp only [eraseK, List.filter_cons, hcond, if_true] at ih ⊢
      rw [ih h]

theorem lookupK_eraseK_of_ne {α : Type} (l : List (Nat × α)) (p q : Nat)
    (h : q ≠ p) : lookupK (eraseK l p) q = lookupK l q := by
  induction l with
  | nil => rfl
  | cons kv t ih =>
    obtain ⟨k, v⟩ := kv
    by_cases hk : k = p
    · have hcond : (k != p) = false := by simpa [bne_iff_ne] using hk
      have hkq : k ≠ q := fun hh => h (hk ▸ hh.symm)
      simp only [eraseK, List.filter_cons, hcond] at ih ⊢
      rw [if_neg (by simp)]
      rw [ih]
      simp [lookupK, hkq]
    · have hcond : (k != p) = true := by simpa [bne_iff_ne] using hk
      simp only [eraseK, List.filter_cons, hcond, if_true] at ih ⊢
      by_cases hq : k = q <;> simp [lookupK, hq, ih]

theorem mem_map_fst_eraseK {α : Type} {l : List (Nat × α)} {p a : Nat}
    (h : a ∈ (eraseK l p).map Prod.fst) : a ∈ l.map Prod.fst := by
  simp only [List.mem_map] at h ⊢
  obtain ⟨kv, hmem, hfst⟩ := h
  exact ⟨kv, List.mem_of_mem_filter hmem, hfst⟩

theorem nodup_fst_eraseK {α : Type} {l : List (Nat × α)} {p : Nat}
    (h : (l.map Prod.fst).Nodup) : ((eraseK l p).map Prod.fst).Nodup :=
  h.sublist ((List.filter_sublist l).map Prod.fst)

/-! ### Backtrace equality characterisation -/

theorem framesBeq_iff (l1 l2 : List Frame) :
    framesBeq l1 l2 = true ↔ l1.map Frame.ip = l2.map Frame.ip := by
  induction l1 generalizing l2 with
  | nil => cases l2 <;> simp [framesBeq]
  | cons f t ih => cases l2 <;> simp [framesBeq, ih]

theorem backtraceBeq_iff (b1 b2 : Backtrace) :
    Backtrace.beq b1 b2 = true ↔ b1.frames.map Frame.ip = b2.frames.map Frame.ip :=
  framesBeq_iff b1.frames b2.frames

theorem lookupBt_congr (l : List (Backtrace × Nat)) {b1 b2 : Backtrace}
    (h : Backtrace.beq b1 b2 = true) : lookupBt l b1 = lookupBt l b2 := by
  induction l with
  | nil => rfl
  | cons kv t ih =>
    obtain ⟨k, v⟩ := kv
    have h12 : b1.frames.map Frame.ip = b2.frames.map Frame.ip :=
      (backtraceBeq_iff _ _).mp h
    have hk : Backtrace.beq b1 k = Backtrace.beq b2 k := by
      by_cases hbk : b2.frames.map Frame.ip = k.frames.map Frame.ip
      · rw [(backtraceBeq_iff _ _).mpr (h12.trans hbk),
          (backtraceBeq_iff _ _).mpr hbk]
      · rw [Bool.eq_false_iff.mpr
            (fun hc => hbk (h12.symm.trans ((backtraceBeq_iff _ _).mp hc))),
          Bool.eq_false_iff.mpr (fun hc => hbk ((backtraceBeq_iff _ _).mp hc))]
    simp only [lookupBt, hk, ih]

/-! ### Claims C5, C6, C7, C8, C9 -/

/-- Claim C5: `check_assert_condition` returns `false` leaving the phase
`Running` when the predicate holds in `Running`+testing; on a failing
predicate it transitions to `PostAssert`, emits the report and returns
`true`; in `Ready`, `Running` without testing, and `PostAssert` it panics
with the respective diagnostic strings. -/
theorem claim_C5_check_assert :
    (∀ g : Globals, g.testing = true →
      check_assert_condition (.Running g) true =
        .ok { phase := .Running g, ret := false, emitted := false } ∧
      check_assert_condition (.Running g) false =
        .ok { phase := .PostAssert, ret := true, emitted := true }) ∧
    (∀ (g : Globals) (c : Bool), g.testing = false →
      check_assert_condition (.Running g) c =
        .error "dhat: asserting while not in testing mode") ∧
    (∀ c : Bool, check_assert_condition .Ready c =
      .error "dhat: asserting when no profiler is running") ∧
    (∀ c : Bool, check_assert_condition .PostAssert c =
      .error "dhat: asserting after the profiler has asserted") := by
  refine ⟨fun g hg => ?_, fun g c hg => ?_, fun c => rfl, fun c => rfl⟩
  · constructor <;> simp [check_assert_condition, hg]
  · simp [check_assert_condition, hg]

/-- Witness for C5 at a concrete running, testing-mode profiler. -/
theorem claim_C5_witness :
    initGlobals.testing = true ∧
    check_assert_condition (.Running initGlobals) false =
      .ok { phase := .PostAssert, ret := true, emitted := true } :=
  ⟨rfl, (claim_C5_check_assert.1 initGlobals rfl).2⟩

/-- Claim C6: when the inner allocator returns null, `alloc` and `realloc`
return null and leave the whole profiler state (hence every counter, table
and map) untouched. -/
theorem claim_C6_null_alloc_no_mutation :
    ∀ (ph : Phase) (size old_ptr old_size new_size : Nat) (bt : Backtrace)
      (now : Nat),
      Alloc.alloc ph size none bt now = (ph, none) ∧
      Alloc.realloc ph old_ptr old_size new_size none bt now = (ph, none) := by
  intro ph size o os ns bt now
  exact ⟨rfl, rfl⟩

/-- Claim C7: a dealloc whose address is not in the live-block table, while
running in heap mode, leaves the profiler state completely unchanged. -/
theorem claim_C7_untracked_dealloc_frame (g : Globals) (h : HeapGlobals)
    (ptr size now : Nat) (hg : g.heap = some h)
    (hlook : lookupK h.live_blocks ptr = none) :
    Alloc.dealloc (.Running g) ptr size now = .Running g := by
  rcases g with ⟨t, fn, tb, ej, sb, ftt, si, ppi, bts, tblk, tbyt, hp⟩
  simp only [Globals.heap] at hg
  subst hg
  simp [Alloc.dealloc, Globals.removeLiveBlock, hlook,
    eraseK_eq_of_lookup_none hlook]

/-- Witness for C7: dropping an address never allocated during the session. -/
theorem claim_C7_witness :
    Alloc.dealloc (.Running initGlobals) 42 16 3 = .Running initGlobals :=
  claim_C7_untracked_dealloc_frame initGlobals HeapGlobals.new 42 16 3 rfl rfl

/-- Claim C8: `HeapStats::get` (resp. `AdHocStats::get`) returns the current
statistics exactly when a profiler is running in heap (resp. ad hoc) mode,
and otherwise panics with the phase- and mode-specific diagnostic strings
(the embedding is read-only on the phase, so a panicking call modifies
nothing). -/
theorem claim_C8_stats_get :
    (∀ (g : Globals) (h : HeapGlobals), g.heap = some h →
      HeapStats.get (.Running g) =
        .ok { total_blocks := g.total_blocks, total_bytes := g.total_bytes,
              curr_blocks := h.curr_blocks, curr_bytes := h.curr_bytes,
              max_blocks := h.max_blocks, max_bytes := h.max_bytes }) ∧
    (∀ g : Globals, g.heap = none →
      HeapStats.get (.Running g) =
        .error "dhat: getting heap stats while doing ad hoc profiling") ∧
    HeapStats.get .Ready =
      .error "dhat: getting heap stats when no profiler is running" ∧
    HeapStats.get .PostAssert =
      .error "dhat: getting heap stats after the profiler has asserted" ∧
    (∀ g : Globals, g.heap = none →
      AdHocStats.get (.Running g) =
        .ok { total_events := g.total_blocks, total_units := g.total_bytes }) ∧
    (∀ (g : Globals) (h : HeapGlobals), g.heap = some h →
      AdHocStats.get (.Running g) =
        .error "dhat: getting ad hoc stats while doing heap profiling") ∧
    AdHocStats.get .Ready =
      .error "dhat: getting ad hoc stats when no profiler is running" ∧
    AdHocStats.get .PostAssert =
      .error "dhat: getting ad hoc stats after the profiler has asserted" := by
  refine ⟨fun g h hg => ?_, fun g hg => ?_, rfl, rfl, fun g hg => ?_,
    fun g h hg => ?_, rfl, rfl⟩ <;>
    simp [HeapStats.get, AdHocStats.get, Globals.get_heap_stats,
      Globals.get_ad_hoc_stats, hg]

/-- Witness for C8 at the concrete heap-mode initial state. -/
theorem claim_C8_witness :
    initGlobals.heap = some HeapGlobals.new ∧
    HeapStats.get (.Running initGlobals) =
      .ok { total_blocks := 0, total_bytes := 0, curr_blocks := 0,
            curr_bytes := 0, max_blocks := 0, max_bytes := 0 } :=
  ⟨rfl, claim_C8_stats_get.1 initGlobals HeapGlobals.new rfl⟩

/-- Claim C9: backtrace equality and hashing depend only on the ip sequence,
and PP lookup is idempotent: a second lookup of an equal backtrace returns
the same index and leaves the state (in particular `pp_infos`) unchanged. -/
theorem claim_C9_backtrace_pp_idempotent :
    (∀ b1 b2 : Backtrace,
      Backtrace.beq b1 b2 = true ↔ b1.frames.map Frame.ip = b2.frames.map Frame.ip) ∧
    (∀ b1 b2 : Backtrace, Backtrace.beq b1 b2 = true →
      Backtrace.hashInput b1 = Backtrace.hashInput b2) ∧
    (∀ (g : Globals) (bt bt' : Backtrace) (d : PpInfo),
      Backtrace.beq bt bt' = true →
      Globals.get_pp_info (Globals.get_pp_info g bt d).2 bt' d =
        Globals.get_pp_info g bt d) := by
  refine ⟨backtraceBeq_iff, fun b1 b2 h => (backtraceBeq_iff b1 b2).mp h,
    fun g bt bt' d hbeq => ?_⟩
  have hsymm : Backtrace.beq bt' bt = true := by
    rw [backtraceBeq_iff] at hbeq ⊢
    exact hbeq.symm
  have hcongr := lookupBt_congr g.backtraces hbeq
  rcases hlb : lookupBt g.backtraces bt with _ | idx
  · have h1 : Globals.get_pp_info g bt d =
        (g.pp_infos.length,
          { g with pp_infos := g.pp_infos ++ [d],
                   backtraces := (bt, g.pp_infos.length) :: g.backtraces }) := by
      simp [Globals.get_pp_info, hlb]
    rw [h1]
    simp [Globals.get_pp_info, lookupBt, hsymm]
  · have hlb' : lookupBt g.backtraces bt' = some idx := by rw [← hcongr]; exact hlb
    simp [Globals.get_pp_info, hlb, hlb']

/-! ### Sum and extraction lemmas for the live-block table -/

theorem liveBytes_cons (sizes : Nat → Nat) (p : Nat) (lb : LiveBlock)
    (l : List (Nat × LiveBlock)) :
    liveBytes sizes ((p, lb) :: l) = sizes p + liveBytes sizes l := by
  simp [liveBytes]

theorem liveBytes_updateF_of_not_mem {sizes : Nat → Nat} {p v : Nat}
    {l : List (Nat × LiveBlock)} (h : p ∉ l.map Prod.fst) :
    liveBytes (updateF sizes p v) l = liveBytes sizes l := by
  induction l with
  | nil => rfl
  | cons kv t ih =>
    obtain ⟨a, b⟩ := kv
    simp only [List.map_cons, List.mem_cons, not_or] at h
    rw [liveBytes_cons, liveBytes_cons, ih h.2]
    have : updateF sizes p v a = sizes a := by
      unfold updateF
      rw [if_neg (fun hc : a = p => h.1 hc.symm)]
    rw [this]

theorem ppBytes_cons (sizes : Nat → Nat) (p : Nat) (lb : LiveBlock)
    (l : List (Nat × LiveBlock)) (i : Nat) :
    ppBytes sizes ((p, lb) :: l) i =
      (if lb.pp_info_idx = i then sizes p else 0) + ppBytes sizes l i := by
  by_cases h : lb.pp_info_idx = i <;>
    simp [ppBytes, List.filter_cons, h]

theorem ppBlocks_cons (p : Nat) (lb : LiveBlock) (l : List (Nat × LiveBlock))
    (i : Nat) :
    ppBlocks ((p, lb) :: l) i =
      (if lb.pp_info_idx = i then 1 else 0) + ppBlocks l i := by
  by_cases h : lb.pp_info_idx = i <;>
    simp [ppBlocks, List.filter_cons, h, Nat.add_comm]

theorem ppBytes_updateF_of_not_mem {sizes : Nat → Nat} {p v : Nat}
    {l : List (Nat × LiveBlock)} (i : Nat) (h : p ∉ l.map Prod.fst) :
    ppBytes (updateF sizes p v) l i = ppBytes sizes l i := by
  induction l with
  | nil => rfl
  | cons kv t ih =>
    obtain ⟨a, b⟩ := kv
    simp only [List.map_cons, List.mem_cons, not_or] at h
    rw [ppBytes_cons, ppBytes_cons, ih h.2]
    have : updateF sizes p v a = sizes a := by
      unfold updateF
      rw [if_neg (fun hc : a = p => h.1 hc.symm)]
    rw [this]

theorem ppBytes_le_liveBytes (sizes : Nat → Nat) (l : List (Nat × LiveBlock))
    (i : Nat) : ppBytes sizes l i ≤ liveBytes sizes l := by
  induction l with
  | nil => exact Nat.le_refl 0
  | cons kv t ih =>
    obtain ⟨a, b⟩ := kv
    rw [ppBytes_cons, liveBytes_cons]
    split_ifs <;> omega

theorem ppBlocks_le_length (l : List (Nat × LiveBlock)) (i : Nat) :
    ppBlocks l i ≤ l.length :=
  List.length_filter_le _ l

theorem ppBytes_eq_zero_of_idx_ge (sizes : Nat → Nat)
    {l : List (Nat × LiveBlock)} {n : Nat}
    (h : ∀ kv ∈ l, kv.2.pp_info_idx < n) :
    ppBytes sizes l n = 0 ∧ ppBlocks l n = 0 := by
  have hfil : l.filter (fun kv => kv.2.pp_info_idx == n) = [] := by
    rw [List.filter_eq_nil_iff]
    intro kv hkv
    simp only [beq_iff_eq]
    exact Nat.ne_of_lt (h kv hkv)
  exact ⟨by simp [ppBytes, hfil], by simp [ppBlocks, hfil]⟩

theorem lookupK_mem {α : Type} {l : List (Nat × α)} {k : Nat} {v : α}
    (h : lookupK l k = some v) : (k, v) ∈ l := by
  induction l with
  | nil => exact absurd h (by simp [lookupK])
  | cons kv t ih =>
    obtain ⟨a, b⟩ := kv
    by_cases ha : a = k
    · rw [lookupK, if_pos ha] at h
      subst ha
      rw [Option.some_inj] at h
      subst h
      exact List.mem_cons_self _ _
    · rw [lookupK, if_neg ha] at h
      exact List.mem_cons_of_mem _ (ih h)

theorem eraseK_cons_self {α : Type} (a : Nat) (b : α) (t : List (Nat × α))
    (hnot : lookupK t a = none) : eraseK ((a, b) :: t) a = t := by
  simp only [eraseK, List.filter_cons, bne_self_eq_false, Bool.false_eq_true,
    if_false]
  exact eraseK_eq_of_lookup_none hnot

theorem eraseK_cons_ne {α : Type} (a k : Nat) (b : α) (t : List (Nat × α))
    (h : a ≠ k) : eraseK ((a, b) :: t) k = (a, b) :: eraseK t k := by
  have hcond : (a != k) = true := by simpa [bne_iff_ne] using h
  simp [eraseK, List.filter_cons, hcond]

theorem extract_liveBytes {sizes : Nat → Nat} {l : List (Nat × LiveBlock)}
    {k : Nat} {v : LiveBlock} (hnd : (l.map Prod.fst).Nodup)
    (h : lookupK l k = some v) :
    liveBytes sizes l = sizes k + liveBytes sizes (eraseK l k) := by
  induction l with
  | nil => exact absurd h (by simp [lookupK])
  | cons kv t ih =>
    obtain ⟨a, b⟩ := kv
    rw [List.map_cons, List.nodup_cons] at hnd
    by_cases ha : a = k
    · subst ha
      have hnot : lookupK t a = none := (lookupK_eq_none_iff t a).mpr hnd.1
      rw [eraseK_cons_self a b t hnot, liveBytes_cons]
    · rw [lookupK, if_neg ha] at h
      rw [eraseK_cons_ne a k b t ha, liveBytes_cons, liveBytes_cons,
        ih hnd.2 h]
      omega

theorem extract_length {α : Type} {l : List (Nat × α)} {k : Nat} {v : α}
    (hnd : (l.map Prod.fst).Nodup) (h : lookupK l k = some v) :
    l.length = (eraseK l k).length + 1 := by
  induction l with
  | nil => exact absurd h (by simp [lookupK])
  | cons kv t ih =>
    obtain ⟨a, b⟩ := kv
    rw [List.map_cons, List.nodup_cons] at hnd
    by_cases ha : a = k
    · subst ha
      have hnot : lookupK t a = none := (lookupK_eq_none_iff t a).mpr hnd.1
      rw [eraseK_cons_self a b t hnot]
      simp
    · rw [lookupK, if_neg ha] at h
      rw [eraseK_cons_ne a k b t ha]
      simp only [List.length_cons]
      rw [ih hnd.2 h]

theorem extract_ppBytes {sizes : Nat → Nat} {l : List (Nat × LiveBlock)}
    {k : Nat} {v : LiveBlock} (i : Nat) (hnd : (l.map Prod.fst).Nodup)
    (h : lookupK l k = some v) :
    ppBytes sizes l i =
      (if v.pp_info_idx = i then sizes k else 0) +
        ppBytes sizes (eraseK l k) i := by
  induction l with
  | nil => exact absurd h (by simp [lookupK])
  | cons kv t ih =>
    obtain ⟨a, b⟩ := kv
    rw [List.map_cons, List.nodup_cons] at hnd
    by_cases ha : a = k
    · subst ha
      have hnot : lookupK t a = none := (lookupK_eq_none_iff t a).mpr hnd.1
      rw [lookupK, if_pos rfl, Option.some_inj] at h
      subst h
      rw [eraseK_cons_self a b t hnot, ppBytes_cons]
    · rw [lookupK, if_neg ha] at h
      rw [eraseK_cons_ne a k b t ha, ppBytes_cons, ppBytes_cons, ih hnd.2 h]
      omega

theorem extract_ppBlocks {l : List (Nat × LiveBlock)} {k : Nat} {v : LiveBlock}
    (i : Nat) (hnd : (l.map Prod.fst).Nodup) (h : lookupK l k = some v) :
    ppBlocks l i =
      (if v.pp_info_idx = i then 1 else 0) + ppBlocks (eraseK l k) i := by
  induction l with
  | nil => exact absurd h (by simp [lookupK])
  | cons kv t ih =>
    obtain ⟨a, b⟩ := kv
    rw [List.map_cons, List.nodup_cons] at hnd
    by_cases ha : a = k
    · subst ha
      have hnot : lookupK t a = none := (lookupK_eq_none_iff t a).mpr hnd.1
      rw [lookupK, if_pos rfl, Option.some_inj] at h
      subst h
      rw [eraseK_cons_self a b t hnot, ppBlocks_cons]
    · rw [lookupK, if_neg ha] at h
      rw [eraseK_cons_ne a k b t ha, ppBlocks_cons, ppBlocks_cons, ih hnd.2 h]
      omega

/-! ### modifyAt and list-index lemmas -/

theorem modifyAt_length (l : List α) (i : Nat) (f : α → α) :
    (modifyAt l i f).length = l.length := by
  induction l generalizing i with
  | nil => rfl
  | cons x t ih =>
    cases i with
    | zero => rfl
    | succ n => simp [modifyAt, ih]

theorem modifyAt_getElem? (l : List α) (i j : Nat) (f : α → α) :
    (modifyAt l i f)[j]? = if i = j then l[j]?.map f else l[j]? := by
  induction l generalizing i j with
  | nil => simp [modifyAt]
  | cons x t ih =>
    cases i with
    | zero =>
      cases j with
      | zero => simp [modifyAt]
      | succ m => simp [modifyAt]
    | succ n =>
      cases j with
      | zero => simp [modifyAt]
      | succ m => simpa [modifyAt] using ih n m

/-! ### Invariant preservation machinery -/

theorem check_peak_shape (g : Globals) :
    g.check_for_global_peak = g ∨
    g.check_for_global_peak =
      { g with pp_infos := g.pp_infos.map PpInfo.snapshot_at_tgmax } := by
  rcases hg : g.heap with _ | h
  · left
    simp only [Globals.check_for_global_peak, hg]
  · by_cases hc : h.curr_bytes = h.max_bytes
    · right
      simp only [Globals.check_for_global_peak, hg, if_pos hc]
    · left
      simp only [Globals.check_for_global_peak, hg, if_neg hc]

theorem PpInv_snapshot {sizes : Nat → Nat} {live : List (Nat × LiveBlock)}
    {i : Nat} {pp : PpInfo} (h : PpInv sizes live i pp) :
    PpInv sizes live i pp.snapshot_at_tgmax := by
  obtain ⟨hp, hheap, h1, h2, h3, h4⟩ := h
  refine ⟨{ hp with at_tgmax_blocks := hp.curr_blocks, at_tgmax_bytes := hp.curr_bytes }, ?_, h1, h2, h3, h4⟩
  simp [PpInfo.snapshot_at_tgmax, hheap]

/-- `check_for_global_peak` only rewrites `at_tgmax` fields: every component
relevant to the invariant is untouched. -/
theorem check_peak_facts (g : Globals) (sizes : Nat → Nat)
    (live : List (Nat × LiveBlock))
    (hpp : ∀ i pp, g.pp_infos[i]? = some pp → PpInv sizes live i pp) :
    (∀ i pp, g.check_for_global_peak.pp_infos[i]? = some pp →
      PpInv sizes live i pp) ∧
    g.check_for_global_peak.pp_infos.length = g.pp_infos.length ∧
    g.check_for_global_peak.heap = g.heap ∧
    g.check_for_global_peak.backtraces = g.backtraces ∧
    g.check_for_global_peak.total_blocks = g.total_blocks ∧
    g.check_for_global_peak.total_bytes = g.total_bytes ∧
    g.check_for_global_peak.testing = g.testing := by
  rcases check_peak_shape g with hsh | hsh <;> rw [hsh]
  · exact ⟨hpp, rfl, rfl, rfl, rfl, rfl, rfl⟩
  · refine ⟨?_, by simp, rfl, rfl, rfl, rfl, rfl⟩
    intro i pp hpp'
    have : (g.pp_infos.map PpInfo.snapshot_at_tgmax)[i]? = some pp := hpp'
    rw [List.getElem?_map] at this
    rcases Option.map_eq_some'.mp this with ⟨pp0, h0, hsnap⟩
    subst hsnap
    exact PpInv_snapshot (hpp i pp0 h0)

theorem lookupBt_mem {l : List (Backtrace × Nat)} {bt : Backtrace} {v : Nat}
    (h : lookupBt l bt = some v) : ∃ k, (k, v) ∈ l := by
  induction l with
  | nil => exact absurd h (by simp [lookupBt])
  | cons kv t ih =>
    obtain ⟨k, w⟩ := kv
    by_cases hk : Backtrace.beq bt k = true
    · rw [lookupBt, if_pos hk, Option.some_inj] at h
      subst h
      exact ⟨k, List.mem_cons_self _ _⟩
    · rw [lookupBt, if_neg hk] at h
      obtain ⟨k', hm⟩ := ih h
      exact ⟨k', List.mem_cons_of_mem _ hm⟩

theorem addDelta_eq {x oldS newS : Nat} (hle : oldS ≤ x) :
    addDelta x (Delta.new oldS newS) + oldS = x + newS := by
  unfold addDelta Delta.new
  by_cases hc : newS < oldS <;> simp [hc] <;> omega

/-- Field-level description of `PpInfo::update_counts_for_alloc`. -/
theorem pp_update_alloc_facts (pp : PpInfo) (hp : HeapPpInfo)
    (hheap : pp.heap = some hp) (sz : Nat) (delta : Option Delta) :
    ∃ hp2, (pp.update_counts_for_alloc sz delta).heap = some hp2 ∧
      (pp.update_counts_for_alloc sz delta).total_blocks = pp.total_blocks + 1 ∧
      (pp.update_counts_for_alloc sz delta).total_bytes = pp.total_bytes + sz ∧
      hp2.curr_bytes = (match delta with
        | some d => addDelta hp.curr_bytes d
        | none => hp.curr_bytes + sz) ∧
      hp2.curr_blocks = (match delta with
        | some _ => hp.curr_blocks
        | none => hp.curr_blocks + 1) ∧
      hp2.curr_bytes ≤ hp2.max_bytes ∧
      hp2.max_bytes = max hp.max_bytes hp2.curr_bytes := by
  rcases delta with _ | d
  · by_cases hif : hp.curr_bytes + sz ≥ hp.max_bytes
    · refine ⟨{ hp with curr_blocks := hp.curr_blocks + 1, curr_bytes := hp.curr_bytes + sz, max_blocks := hp.curr_blocks + 1, max_bytes := hp.curr_bytes + sz }, ?_, ?_, ?_, ?_, ?_, ?_, ?_⟩ <;>
        simp [PpInfo.update_counts_for_alloc, hheap, hif]
    · refine ⟨{ hp with curr_blocks := hp.curr_blocks + 1, curr_bytes := hp.curr_bytes + sz }, ?_, ?_, ?_, ?_, ?_, ?_, ?_⟩ <;>
        simp [PpInfo.update_counts_for_alloc, hheap, hif] <;> omega
  · by_cases hif : addDelta hp.curr_bytes d ≥ hp.max_bytes
    · refine ⟨{ hp with curr_blocks := hp.curr_blocks + 0, curr_bytes := addDelta hp.curr_bytes d, max_blocks := hp.curr_blocks + 0, max_bytes := addDelta hp.curr_bytes d }, ?_, ?_, ?_, ?_, ?_, ?_, ?_⟩ <;>
        simp [PpInfo.update_counts_for_alloc, hheap, hif]
    · refine ⟨{ hp with curr_blocks := hp.curr_blocks + 0, curr_bytes := addDelta hp.curr_bytes d }, ?_, ?_, ?_, ?_, ?_, ?_, ?_⟩ <;>
        simp [PpInfo.update_counts_for_alloc, hheap, hif] <;> omega

/-- Field-level description of `PpInfo::update_counts_for_dealloc`. -/
theorem pp_update_dealloc_facts (pp : PpInfo) (hp : HeapPpInfo)
    (hheap : pp.heap = some hp) (sz dur : Nat) :
    ∃ hp2, (pp.update_counts_for_dealloc sz dur).heap = some hp2 ∧
      (pp.update_counts_for_dealloc sz dur).total_blocks = pp.total_blocks ∧
      (pp.update_counts_for_dealloc sz dur).total_bytes = pp.total_bytes ∧
      hp2.curr_bytes = hp.curr_bytes - sz ∧
      hp2.curr_blocks = hp.curr_blocks - 1 ∧
      hp2.max_bytes = hp.max_bytes := by
  refine ⟨{ hp with curr_blocks := hp.curr_blocks - 1, curr_bytes := hp.curr_bytes - sz, total_lifetimes_duration := hp.total_lifetimes_duration + dur }, ?_, ?_, ?_, ?_, ?_, ?_⟩ <;>
    simp [PpInfo.update_counts_for_dealloc, hheap]

/-- Field-level description of `Globals::update_counts_for_alloc`. -/
theorem g_update_alloc_facts (g : Globals) (h : HeapGlobals)
    (hg : g.heap = some h) (idx sz : Nat) (delta : Option Delta) (now : Nat) :
    ∃ h3, (g.update_counts_for_alloc idx sz delta now).heap = some h3 ∧
      (g.update_counts_for_alloc idx sz delta now).total_blocks =
        g.total_blocks + 1 ∧
      (g.update_counts_for_alloc idx sz delta now).total_bytes =
        g.total_bytes + sz ∧
      (g.update_counts_for_alloc idx sz delta now).backtraces = g.backtraces ∧
      (g.update_counts_for_alloc idx sz delta now).pp_infos =
        modifyAt g.pp_infos idx (fun pp => pp.update_counts_for_alloc sz delta) ∧
      h3.live_blocks = h.live_blocks ∧
      h3.curr_bytes = (match delta with
        | some d => addDelta h.curr_bytes d
        | none => h.curr_bytes + sz) ∧
      h3.curr_blocks = (match delta with
        | some _ => h.curr_blocks
        | none => h.curr_blocks + 1) ∧
      h3.curr_bytes ≤ h3.max_bytes ∧
      h3.max_bytes = max h.max_bytes h3.curr_bytes ∧
      (h3.curr_bytes = h3.max_bytes → h3.max_blocks = h3.curr_blocks) ∧
      (h3.curr_bytes < h.max_bytes →
        h3.max_bytes = h.max_bytes ∧ h3.max_blocks = h.max_blocks) := by
  rcases delta with _ | d
  · by_cases hif : h.curr_bytes + sz ≥ h.max_bytes
    · refine ⟨{ h with curr_blocks := h.curr_blocks + 1, curr_bytes := h.curr_bytes + sz, max_blocks := h.curr_blocks + 1, max_bytes := h.curr_bytes + sz, tgmax_instant := now }, ?_, ?_, ?_, ?_, ?_, ?_, ?_, ?_, ?_, ?_, ?_, ?_⟩ <;>
        simp [Globals.update_counts_for_alloc, hg, hif]
    · refine ⟨{ h with curr_blocks := h.curr_blocks + 1, curr_bytes := h.curr_bytes + sz }, ?_, ?_, ?_, ?_, ?_, ?_, ?_, ?_, ?_, ?_, ?_, ?_⟩ <;>
        simp [Globals.update_counts_for_alloc, hg, hif] <;> omega
  · by_cases hif : addDelta h.curr_bytes d ≥ h.max_bytes
    · refine ⟨{ h with curr_blocks := h.curr_blocks + 0, curr_bytes := addDelta h.curr_bytes d, max_blocks := h.curr_blocks + 0, max_bytes := addDelta h.curr_bytes d, tgmax_instant := now }, ?_, ?_, ?_, ?_, ?_, ?_, ?_, ?_, ?_, ?_, ?_, ?_⟩ <;>
        simp [Globals.update_counts_for_alloc, hg, hif]
    · refine ⟨{ h with curr_blocks := h.curr_blocks + 0, curr_bytes := addDelta h.curr_bytes d }, ?_, ?_, ?_, ?_, ?_, ?_, ?_, ?_, ?_, ?_, ?_, ?_⟩ <;>
        simp [Globals.update_counts_for_alloc, hg, hif] <;> omega

/-- Field-level description of `Globals::update_counts_for_dealloc`. -/
theorem g_update_dealloc_facts (g : Globals) (h : HeapGlobals)
    (hg : g.heap = some h) (idx sz dur : Nat) :
    ∃ h3, (g.update_counts_for_dealloc idx sz dur).heap = some h3 ∧
      (g.update_counts_for_dealloc idx sz dur).total_blocks = g.total_blocks ∧
      (g.update_counts_for_dealloc idx sz dur).total_bytes = g.total_bytes ∧
      (g.update_counts_for_dealloc idx sz dur).backtraces = g.backtraces ∧
      (g.update_counts_for_dealloc idx sz dur).pp_infos =
        modifyAt g.pp_infos idx (fun pp => pp.update_counts_for_dealloc sz dur) ∧
      h3.live_blocks = h.live_blocks ∧
      h3.curr_bytes = h.curr_bytes - sz ∧
      h3.curr_blocks = h.curr_blocks - 1 ∧
      h3.max_bytes = h.max_bytes ∧
      h3.max_blocks = h.max_blocks := by
  refine ⟨{ h with curr_blocks := h.curr_blocks - 1, curr_bytes := h.curr_bytes - sz }, ?_, ?_, ?_, ?_, ?_, ?_, ?_, ?_, ?_, ?_⟩ <;>
    simp [Globals.update_counts_for_dealloc, hg]

/-- `get_pp_info` preserves the invariant and returns a valid index. -/
theorem get_pp_info_facts (g : Globals) (h : HeapGlobals) (sizes : Nat → Nat)
    (bt : Backtrace) (hg : g.heap = some h) (hinv : InvG g sizes h) :
    (g.get_pp_info bt PpInfo.new_heap).2.heap = some h ∧
    InvG (g.get_pp_info bt PpInfo.new_heap).2 sizes h ∧
    (g.get_pp_info bt PpInfo.new_heap).1 <
      (g.get_pp_info bt PpInfo.new_heap).2.pp_infos.length := by
  unfold Globals.get_pp_info
  rcases hlb : lookupBt g.backtraces bt with _ | idx
  · refine ⟨hg, ?_, ?_⟩
    · refine ⟨hinv.curr_bytes_eq, hinv.curr_blocks_eq, hinv.nodupKeys,
        hinv.live_pos, ?_, ?_, hinv.max_ge, hinv.tie, ?_⟩
      · intro kv hm
        have := hinv.live_idx kv hm
        simp only [List.length_append, List.length_cons, List.length_nil]
        omega
      · intro kv hm
        simp only [List.length_append, List.length_cons, List.length_nil]
        rcases List.mem_cons.mp hm with hh | hh
        · rw [hh]
          simp
        · have := hinv.bt_idx kv hh
          omega
      · intro i pp hget
        rcases Nat.lt_trichotomy i g.pp_infos.length with hlt | heq | hgt
        · rw [List.getElem?_append_left hlt] at hget
          exact hinv.pp_inv i pp hget
        · subst heq
          rw [List.getElem?_concat_length] at hget
          rw [Option.some_inj] at hget
          subst hget
          obtain ⟨hz1, hz2⟩ := ppBytes_eq_zero_of_idx_ge sizes
            (fun kv hm => hinv.live_idx kv hm)
          exact ⟨⟨0, 0, 0, 0, 0, 0, 0⟩, rfl, hz1.symm, hz2.symm,
            Nat.le_refl 0, Nat.zero_le 0⟩
        · rw [List.getElem?_eq_none (by simp; omega)] at hget
          exact absurd hget (by simp)
    · simp
  · obtain ⟨k, hm⟩ := lookupBt_mem hlb
    exact ⟨hg, hinv, hinv.bt_idx (k, idx) hm⟩

/-- The recorded-allocation chain (`record_block` then
`update_counts_for_alloc` with no delta) preserves the invariant; the new
state's counters are described exactly. -/
theorem alloc_chain_facts (g : Globals) (h : HeapGlobals) (sizes : Nat → Nat)
    (p idx sz now : Nat)
    (hg : g.heap = some h) (hinv : InvG g sizes h)
    (hidx : idx < g.pp_infos.length) (hpos : 0 < sz)
    (hlook : lookupK h.live_blocks p = none) :
    ∃ h3,
      ((g.record_block p idx now).update_counts_for_alloc idx sz none now).heap
        = some h3 ∧
      InvG ((g.record_block p idx now).update_counts_for_alloc idx sz none now)
        (updateF sizes p sz) h3 ∧
      h3.curr_bytes = h.curr_bytes + sz ∧
      h3.curr_blocks = h.curr_blocks + 1 ∧
      h3.max_bytes = max h.max_bytes h3.curr_bytes ∧
      (h3.curr_bytes = h3.max_bytes → h3.max_blocks = h3.curr_blocks) ∧
      (h3.curr_bytes < h.max_bytes →
        h3.max_bytes = h.max_bytes ∧ h3.max_blocks = h.max_blocks) ∧
      ((g.record_block p idx now).update_counts_for_alloc idx sz none now).total_blocks
        = g.total_blocks + 1 ∧
      ((g.record_block p idx now).update_counts_for_alloc idx sz none now).total_bytes
        = g.total_bytes + sz := by
  have hnotmem : p ∉ h.live_blocks.map Prod.fst :=
    (lookupK_eq_none_iff _ _).mp hlook
  have hrec : g.record_block p idx now =
      { g with heap := some { h with live_blocks := (p, ⟨idx, now⟩) :: h.live_blocks } } := by
    simp only [Globals.record_block, hg, eraseK_eq_of_lookup_none hlook]
  rw [hrec]
  obtain ⟨h3, e_heap, e_tblk, e_tbyt, e_bts, e_pps, e_live, e_cby, e_cblk,
    e_le, e_max, e_tie, e_lt⟩ :=
    g_update_alloc_facts
      { g with heap := some { h with live_blocks := (p, ⟨idx, now⟩) :: h.live_blocks } }
      { h with live_blocks := (p, ⟨idx, now⟩) :: h.live_blocks }
      rfl idx sz none now
  have e_cby' : h3.curr_bytes = h.curr_bytes + sz := e_cby
  have e_cblk' : h3.curr_blocks = h.curr_blocks + 1 := e_cblk
  have e_live' : h3.live_blocks = (p, ⟨idx, now⟩) :: h.live_blocks := e_live
  have e_max' : h3.max_bytes = max h.max_bytes h3.curr_bytes := e_max
  have e_lt' : h3.curr_bytes < h.max_bytes →
      h3.max_bytes = h.max_bytes ∧ h3.max_blocks = h.max_blocks := e_lt
  have hself : updateF sizes p sz p = sz := by simp [updateF]
  refine ⟨h3, e_heap, ?_, e_cby', e_cblk', e_max', e_tie, e_lt', e_tblk, e_tbyt⟩
  refine ⟨?_, ?_, ?_, ?_, ?_, ?_, e_le, fun he => (e_tie he).symm, ?_⟩
  · rw [e_cby', e_live', liveBytes_cons, hself,
      liveBytes_updateF_of_not_mem hnotmem, hinv.curr_bytes_eq]
    omega
  · rw [e_cblk', e_live', List.length_cons, hinv.curr_blocks_eq]
  · rw [e_live', List.map_cons]
    exact List.nodup_cons.mpr ⟨hnotmem, hinv.nodupKeys⟩
  · intro kv hm
    rw [e_live'] at hm
    rcases List.mem_cons.mp hm with hh | hh
    · rw [hh, hself]
      exact hpos
    · have hne : kv.1 ≠ p := by
        intro hc
        exact hnotmem (hc ▸ List.mem_map_of_mem Prod.fst hh)
      have : updateF sizes p sz kv.1 = sizes kv.1 := by
        simp [updateF, hne]
      rw [this]
      exact hinv.live_pos kv hh
  · intro kv hm
    rw [e_live'] at hm
    rw [e_pps, modifyAt_length]
    rcases List.mem_cons.mp hm with hh | hh
    · rw [hh]
      exact hidx
    · exact hinv.live_idx kv hh
  · intro kv hm
    rw [e_bts] at hm
    rw [e_pps, modifyAt_length]
    exact hinv.bt_idx kv hm
  · intro i pp' hget
    rw [e_pps, modifyAt_getElem?] at hget
    by_cases hii : idx = i
    · subst hii
      rw [if_pos rfl] at hget
      rcases Option.map_eq_some'.mp hget with ⟨pp0, h0, hf⟩
      subst hf
      obtain ⟨hp, hheap, p1, p2, p3, p4⟩ := hinv.pp_inv idx pp0 h0
      obtain ⟨hp2, f_heap, f_tblk, f_tbyt, f_cby, f_cblk, f_le, f_max⟩ :=
        pp_update_alloc_facts pp0 hp hheap sz none
      have f_cby' : hp2.curr_bytes = hp.curr_bytes + sz := f_cby
      have f_cblk' : hp2.curr_blocks = hp.curr_blocks + 1 := f_cblk
      have f_tbyt' : (pp0.update_counts_for_alloc sz none).total_bytes =
          pp0.total_bytes + sz := f_tbyt
      refine ⟨hp2, f_heap, ?_, ?_, f_le, ?_⟩
      · rw [f_cby', e_live', ppBytes_cons,
          ppBytes_updateF_of_not_mem _ hnotmem, ← p1, hself]
        split_ifs with hc
        · omega
        · exact absurd rfl hc
      · rw [f_cblk', e_live', ppBlocks_cons, ← p2]
        split_ifs with hc
        · omega
        · exact absurd rfl hc
      · rw [f_max, f_tbyt', f_cby']
        omega
    · rw [if_neg hii] at hget
      obtain ⟨hp, hheap, p1, p2, p3, p4⟩ := hinv.pp_inv i pp' hget
      refine ⟨hp, hheap, ?_, ?_, p3, p4⟩
      · rw [e_live', ppBytes_cons, ppBytes_updateF_of_not_mem _ hnotmem, ← p1]
        split_ifs with hc
        · exact absurd hc hii
        · omega
      · rw [e_live', ppBlocks_cons, ← p2]
        split_ifs with hc
        · exact absurd hc hii
        · omega

theorem set_heap_self (g : Globals) (h : HeapGlobals) (hg : g.heap = some h) :
    { g with heap := some h } = g := by
  cases g
  subst hg
  rfl

theorem heapGlobals_eta (h : HeapGlobals) :
    HeapGlobals.mk h.live_blocks h.curr_blocks h.curr_bytes h.max_blocks
      h.max_bytes h.tgmax_instant = h := rfl

/-- Removing an absent key from the live-block table is a no-op. -/
theorem removeLiveBlock_absent (g : Globals) (h : HeapGlobals) (p : Nat)
    (hg : g.heap = some h) (hlook : lookupK h.live_blocks p = none) :
    g.removeLiveBlock p = (none, g) := by
  simp only [Globals.removeLiveBlock, hg, hlook, eraseK_eq_of_lookup_none hlook]
  rw [heapGlobals_eta, set_heap_self g h hg]

/-- `check_for_global_peak` preserves the full invariant. -/
theorem InvG_check_peak (g : Globals) (h : HeapGlobals) (sizes : Nat → Nat)
    (hg : g.heap = some h) (hinv : InvG g sizes h) :
    g.check_for_global_peak.heap = some h ∧
    InvG g.check_for_global_peak sizes h := by
  obtain ⟨hpp, hlen, hheap, hbts, _, _, _⟩ :=
    check_peak_facts g sizes h.live_blocks hinv.pp_inv
  refine ⟨by rw [hheap]; exact hg, ?_⟩
  refine ⟨hinv.curr_bytes_eq, hinv.curr_blocks_eq, hinv.nodupKeys,
    hinv.live_pos, ?_, ?_, hinv.max_ge, hinv.tie, hpp⟩
  · intro kv hm
    rw [hlen]
    exact hinv.live_idx kv hm
  · intro kv hm
    rw [hbts] at hm
    rw [hlen]
    exact hinv.bt_idx kv hm

/-- A dealloc of an address absent from the live-block table leaves the
state unchanged (used by claim C7 and the step lemma). -/
theorem dealloc_untracked_eq (g : Globals) (h : HeapGlobals)
    (ptr size now : Nat) (hg : g.heap = some h)
    (hlook : lookupK h.live_blocks ptr = none) :
    Alloc.dealloc (.Running g) ptr size now = .Running g := by
  simp only [Alloc.dealloc, hg, removeLiveBlock_absent g h ptr hg hlook]

/-- The tracked-realloc chain (remove the old live entry, re-record under the
new address with the same PP, update counts by the delta) preserves the
invariant; the new state's counters are described exactly. -/
theorem realloc_chain_facts (g : Globals) (h : HeapGlobals) (sizes : Nat → Nat)
    (old oldSz newSz p now : Nat) (lb : LiveBlock)
    (hg : g.heap = some h) (hinv : InvG g sizes h)
    (hlb : lookupK h.live_blocks old = some lb)
    (hszo : sizes old = oldSz) (hposn : 0 < newSz)
    (hfresh : lookupK (eraseK h.live_blocks old) p = none) :
    ∃ h3,
      (((g.removeLiveBlock old).2.record_block p lb.pp_info_idx now).update_counts_for_alloc
          lb.pp_info_idx newSz (some (Delta.new oldSz newSz)) now).heap = some h3 ∧
      InvG (((g.removeLiveBlock old).2.record_block p lb.pp_info_idx now).update_counts_for_alloc
          lb.pp_info_idx newSz (some (Delta.new oldSz newSz)) now)
        (updateF sizes p newSz) h3 ∧
      h3.curr_bytes + oldSz = h.curr_bytes + newSz ∧
      h3.curr_blocks = h.curr_blocks ∧
      h3.max_bytes = max h.max_bytes h3.curr_bytes ∧
      (h3.curr_bytes = h3.max_bytes → h3.max_blocks = h3.curr_blocks) ∧
      (h3.curr_bytes < h.max_bytes →
        h3.max_bytes = h.max_bytes ∧ h3.max_blocks = h.max_blocks) ∧
      (((g.removeLiveBlock old).2.record_block p lb.pp_info_idx now).update_counts_for_alloc
          lb.pp_info_idx newSz (some (Delta.new oldSz newSz)) now).total_blocks =
        g.total_blocks + 1 ∧
      (((g.removeLiveBlock old).2.record_block p lb.pp_info_idx now).update_counts_for_alloc
          lb.pp_info_idx newSz (some (Delta.new oldSz newSz)) now).total_bytes =
        g.total_bytes + newSz ∧
      h3.live_blocks = (p, ⟨lb.pp_info_idx, now⟩) :: eraseK h.live_blocks old ∧
      (((g.removeLiveBlock old).2.record_block p lb.pp_info_idx now).update_counts_for_alloc
          lb.pp_info_idx newSz (some (Delta.new oldSz newSz)) now).pp_infos =
        modifyAt g.pp_infos lb.pp_info_idx
          (fun pp => pp.update_counts_for_alloc newSz (some (Delta.new oldSz newSz))) := by
  have hidx : lb.pp_info_idx < g.pp_infos.length :=
    hinv.live_idx (old, lb) (lookupK_mem hlb)
  have hnotmem : p ∉ (eraseK h.live_blocks old).map Prod.fst :=
    (lookupK_eq_none_iff _ _).mp hfresh
  have hndE : ((eraseK h.live_blocks old).map Prod.fst).Nodup :=
    nodup_fst_eraseK hinv.nodupKeys
  have hposo : 0 < oldSz := hszo ▸ hinv.live_pos (old, lb) (lookupK_mem hlb)
  have hlive_split : liveBytes sizes h.live_blocks =
      oldSz + liveBytes sizes (eraseK h.live_blocks old) := by
    rw [extract_liveBytes hinv.nodupKeys hlb, hszo]
  have hlen_split : h.live_blocks.length = (eraseK h.live_blocks old).length + 1 :=
    extract_length hinv.nodupKeys hlb
  have hrm : (g.removeLiveBlock old).2 =
      { g with heap := some { h with live_blocks := eraseK h.live_blocks old } } := by
    simp only [Globals.removeLiveBlock, hg]
  have hrec : (g.removeLiveBlock old).2.record_block p lb.pp_info_idx now =
      { g with heap := some { h with live_blocks :=
          (p, ⟨lb.pp_info_idx, now⟩) :: eraseK h.live_blocks old } } := by
    rw [hrm]
    simp only [Globals.record_block, eraseK_eq_of_lookup_none hfresh]
  rw [hrec]
  obtain ⟨h3, e_heap, e_tblk, e_tbyt, e_bts, e_pps, e_live, e_cby, e_cblk,
    e_le, e_max, e_tie, e_lt⟩ :=
    g_update_alloc_facts
      { g with heap := some { h with live_blocks :=
          (p, ⟨lb.pp_info_idx, now⟩) :: eraseK h.live_blocks old } }
      { h with live_blocks := (p, ⟨lb.pp_info_idx, now⟩) :: eraseK h.live_blocks old }
      rfl lb.pp_info_idx newSz (some (Delta.new oldSz newSz)) now
  have e_cby' : h3.curr_bytes = addDelta h.curr_bytes (Delta.new oldSz newSz) := e_cby
  have e_cblk' : h3.curr_blocks = h.curr_blocks := e_cblk
  have e_live' : h3.live_blocks =
      (p, ⟨lb.pp_info_idx, now⟩) :: eraseK h.live_blocks old := e_live
  have hole : oldSz ≤ h.curr_bytes := by
    rw [hinv.curr_bytes_eq, hlive_split]
    omega
  have hdel : h3.curr_bytes + oldSz = h.curr_bytes + newSz := by
    rw [e_cby']
    exact addDelta_eq hole
  have hself : updateF sizes p newSz p = newSz := by simp [updateF]
  refine ⟨h3, e_heap, ?_, hdel, e_cblk', e_max, e_tie, e_lt, e_tblk, e_tbyt,
    e_live', e_pps⟩
  refine ⟨?_, ?_, ?_, ?_, ?_, ?_, e_le, fun he => (e_tie he).symm, ?_⟩
  · rw [e_live', liveBytes_cons, hself,
      liveBytes_updateF_of_not_mem hnotmem]
    have := hinv.curr_bytes_eq
    omega
  · rw [e_cblk', e_live', List.length_cons, hinv.curr_blocks_eq, hlen_split]
  · rw [e_live', List.map_cons]
    exact List.nodup_cons.mpr ⟨hnotmem, hndE⟩
  · intro kv hm
    rw [e_live'] at hm
    rcases List.mem_cons.mp hm with hh | hh
    · rw [hh, hself]
      exact hposn
    · have hne : kv.1 ≠ p := by
        intro hc
        exact hnotmem (hc ▸ List.mem_map_of_mem Prod.fst hh)
      have : updateF sizes p newSz kv.1 = sizes kv.1 := by
        simp [updateF, hne]
      rw [this]
      exact hinv.live_pos kv (List.mem_of_mem_filter hh)
  · intro kv hm
    rw [e_live'] at hm
    rw [e_pps, modifyAt_length]
    rcases List.mem_cons.mp hm with hh | hh
    · rw [hh]
      exact hidx
    · exact hinv.live_idx kv (List.mem_of_mem_filter hh)
  · intro kv hm
    rw [e_bts] at hm
    rw [e_pps, modifyAt_length]
    exact hinv.bt_idx kv hm
  · intro i pp' hget
    rw [e_pps, modifyAt_getElem?] at hget
    by_cases hii : lb.pp_info_idx = i
    · subst hii
      rw [if_pos rfl] at hget
      rcases Option.map_eq_some'.mp hget with ⟨pp0, h0, hf⟩
      subst hf
      obtain ⟨hp, hheap, p1, p2, p3, p4⟩ := hinv.pp_inv lb.pp_info_idx pp0 h0
      obtain ⟨hp2, f_heap, f_tblk, f_tbyt, f_cby, f_cblk, f_le, f_max⟩ :=
        pp_update_alloc_facts pp0 hp hheap newSz (some (Delta.new oldSz newSz))
      have f_cby' : hp2.curr_bytes = addDelta hp.curr_bytes (Delta.new oldSz newSz) := f_cby
      have f_cblk' : hp2.curr_blocks = hp.curr_blocks := f_cblk
      have f_tbyt' : (pp0.update_counts_for_alloc newSz (some (Delta.new oldSz newSz))).total_bytes =
          pp0.total_bytes + newSz := f_tbyt
      have hsplitB := @extract_ppBytes sizes _ _ _ lb.pp_info_idx hinv.nodupKeys hlb
      have hsplitK := @extract_ppBlocks _ _ lb lb.pp_info_idx hinv.nodupKeys hlb
      rw [if_pos rfl] at hsplitB hsplitK
      have holep : oldSz ≤ hp.curr_bytes := by
        rw [p1, hsplitB, hszo]
        omega
      have hdelp : hp2.curr_bytes + oldSz = hp.curr_bytes + newSz := by
        rw [f_cby']
        exact addDelta_eq holep
      refine ⟨hp2, f_heap, ?_, ?_, f_le, ?_⟩
      · rw [e_live', ppBytes_cons,
          ppBytes_updateF_of_not_mem _ hnotmem]
        rw [p1, hsplitB, hszo] at hdelp
        split_ifs with hc
        · rw [hself]
          omega
        · exact absurd rfl hc
      · rw [f_cblk', e_live', ppBlocks_cons, p2, hsplitK]
        split_ifs with hc
        · omega
        · exact absurd rfl hc
      · rw [f_max, f_tbyt']
        omega
    · rw [if_neg hii] at hget
      obtain ⟨hp, hheap, p1, p2, p3, p4⟩ := hinv.pp_inv i pp' hget
      have hsplitB := @extract_ppBytes sizes _ _ _ i hinv.nodupKeys hlb
      have hsplitK := @extract_ppBlocks _ _ lb i hinv.nodupKeys hlb
      rw [if_neg hii] at hsplitB hsplitK
      refine ⟨hp, hheap, ?_, ?_, p3, p4⟩
      · rw [e_live', ppBytes_cons, ppBytes_updateF_of_not_mem _ hnotmem, p1,
          hsplitB]
        split_ifs with hc
        · exact absurd hc hii
        · omega
      · rw [e_live', ppBlocks_cons, p2, hsplitK]
        split_ifs with hc
        · exact absurd hc hii
        · omega

/-- The tracked-dealloc chain (remove the live entry, snapshot the peak,
decrement the counters) preserves the invariant; the new state's counters are
described exactly. -/
theorem dealloc_chain_facts (g : Globals) (h : HeapGlobals) (sizes : Nat → Nat)
    (p sz dur : Nat) (lb : LiveBlock)
    (hg : g.heap = some h) (hinv : InvG g sizes h)
    (hlb : lookupK h.live_blocks p = some lb)
    (hsz : sizes p = sz) :
    ∃ h3,
      ((g.removeLiveBlock p).2.check_for_global_peak.update_counts_for_dealloc
          lb.pp_info_idx sz dur).heap = some h3 ∧
      InvG ((g.removeLiveBlock p).2.check_for_global_peak.update_counts_for_dealloc
          lb.pp_info_idx sz dur) sizes h3 ∧
      h3.curr_bytes + sz = h.curr_bytes ∧
      h3.curr_blocks + 1 = h.curr_blocks ∧
      h3.curr_bytes < h.max_bytes ∧
      h3.max_bytes = h.max_bytes ∧
      h3.max_blocks = h.max_blocks ∧
      ((g.removeLiveBlock p).2.check_for_global_peak.update_counts_for_dealloc
          lb.pp_info_idx sz dur).total_blocks = g.total_blocks ∧
      ((g.removeLiveBlock p).2.check_for_global_peak.update_counts_for_dealloc
          lb.pp_info_idx sz dur).total_bytes = g.total_bytes ∧
      h3.live_blocks = eraseK h.live_blocks p := by
  have hidx : lb.pp_info_idx < g.pp_infos.length :=
    hinv.live_idx (p, lb) (lookupK_mem hlb)
  have hpos : 0 < sz := hsz ▸ hinv.live_pos (p, lb) (lookupK_mem hlb)
  have hlive_split : liveBytes sizes h.live_blocks =
      sz + liveBytes sizes (eraseK h.live_blocks p) := by
    rw [extract_liveBytes hinv.nodupKeys hlb, hsz]
  have hlen_split : h.live_blocks.length = (eraseK h.live_blocks p).length + 1 :=
    extract_length hinv.nodupKeys hlb
  have hrm : (g.removeLiveBlock p).2 =
      { g with heap := some { h with live_blocks := eraseK h.live_blocks p } } := by
    simp only [Globals.removeLiveBlock, hg]
  rw [hrm]
  have hppg2 : ∀ i pp,
      ({ g with heap := some { h with live_blocks := eraseK h.live_blocks p } } : Globals).pp_infos[i]?
        = some pp → PpInv sizes h.live_blocks i pp := hinv.pp_inv
  obtain ⟨hpp2, hlen2, hheap2, hbts2, htblk2, htbyt2, _⟩ :=
    check_peak_facts
      { g with heap := some { h with live_blocks := eraseK h.live_blocks p } }
      sizes h.live_blocks hppg2
  have hheap2' : ({ g with heap := some { h with live_blocks := eraseK h.live_blocks p } } : Globals).check_for_global_peak.heap
      = some { h with live_blocks := eraseK h.live_blocks p } := hheap2
  obtain ⟨h3, e_heap, e_tblk, e_tbyt, e_bts, e_pps, e_live, e_cby, e_cblk,
    e_maxby, e_maxbk⟩ :=
    g_update_dealloc_facts _ _ hheap2' lb.pp_info_idx sz dur
  have e_cby' : h3.curr_bytes = h.curr_bytes - sz := e_cby
  have e_cblk' : h3.curr_blocks = h.curr_blocks - 1 := e_cblk
  have e_live' : h3.live_blocks = eraseK h.live_blocks p := e_live
  have hcurr_eq : h.curr_bytes = sz + liveBytes sizes (eraseK h.live_blocks p) := by
    rw [← hlive_split]
    exact hinv.curr_bytes_eq
  have hblk_eq : h.curr_blocks = (eraseK h.live_blocks p).length + 1 := by
    rw [← hlen_split]
    exact hinv.curr_blocks_eq
  have hmax := hinv.max_ge
  have hlen2' : (({ g with heap := some { h with live_blocks := eraseK h.live_blocks p } } : Globals).check_for_global_peak).pp_infos.length
      = g.pp_infos.length := hlen2
  have hbts2' : (({ g with heap := some { h with live_blocks := eraseK h.live_blocks p } } : Globals).check_for_global_peak).backtraces
      = g.backtraces := hbts2
  have htblk2' : (({ g with heap := some { h with live_blocks := eraseK h.live_blocks p } } : Globals).check_for_global_peak).total_blocks
      = g.total_blocks := htblk2
  have htbyt2' : (({ g with heap := some { h with live_blocks := eraseK h.live_blocks p } } : Globals).check_for_global_peak).total_bytes
      = g.total_bytes := htbyt2
  refine ⟨h3, e_heap, ?_, by omega, by omega, by omega, e_maxby, e_maxbk,
    by rw [e_tblk, htblk2'], by rw [e_tbyt, htbyt2'], e_live'⟩
  refine ⟨?_, ?_, ?_, ?_, ?_, ?_, ?_, ?_, ?_⟩
  · rw [e_cby', e_live']
    omega
  · rw [e_cblk', e_live']
    omega
  · rw [e_live']
    exact nodup_fst_eraseK hinv.nodupKeys
  · intro kv hm
    rw [e_live'] at hm
    exact hinv.live_pos kv (List.mem_of_mem_filter hm)
  · intro kv hm
    rw [e_live'] at hm
    rw [e_pps, modifyAt_length, hlen2']
    exact hinv.live_idx kv (List.mem_of_mem_filter hm)
  · intro kv hm
    rw [e_bts, hbts2'] at hm
    rw [e_pps, modifyAt_length, hlen2']
    exact hinv.bt_idx kv hm
  · rw [e_cby', show h3.max_bytes = h.max_bytes from e_maxby]
    omega
  · intro he
    rw [e_cby', show h3.max_bytes = h.max_bytes from e_maxby] at he
    omega
  · intro i pp' hget
    rw [e_pps, modifyAt_getElem?] at hget
    by_cases hii : lb.pp_info_idx = i
    · subst hii
      rw [if_pos rfl] at hget
      rcases Option.map_eq_some'.mp hget with ⟨pp0, h0, hf⟩
      subst hf
      obtain ⟨hp, hheap, p1, p2, p3, p4⟩ := hpp2 lb.pp_info_idx pp0 h0
      obtain ⟨hp2, f_heap, f_tblk, f_tbyt, f_cby, f_cblk, f_max⟩ :=
        pp_update_dealloc_facts pp0 hp hheap sz dur
      have hsplitB := @extract_ppBytes sizes _ _ _ lb.pp_info_idx hinv.nodupKeys hlb
      have hsplitK := @extract_ppBlocks _ _ lb lb.pp_info_idx hinv.nodupKeys hlb
      rw [if_pos rfl] at hsplitB hsplitK
      rw [hsz] at hsplitB
      refine ⟨hp2, f_heap, ?_, ?_, ?_, ?_⟩
      · rw [f_cby, e_live', p1, hsplitB]
        omega
      · rw [f_cblk, e_live', p2, hsplitK]
        omega
      · rw [f_cby, f_max]
        omega
      · rw [f_max, f_tbyt]
        exact p4
    · rw [if_neg hii] at hget
      obtain ⟨hp, hheap, p1, p2, p3, p4⟩ := hpp2 i pp' hget
      have hsplitB := @extract_ppBytes sizes _ _ _ i hinv.nodupKeys hlb
      have hsplitK := @extract_ppBlocks _ _ lb i hinv.nodupKeys hlb
      rw [if_neg hii] at hsplitB hsplitK
      refine ⟨hp, hheap, ?_, ?_, p3, p4⟩
      · rw [e_live', p1, hsplitB]
        omega
      · rw [e_live', p2, hsplitK]
        omega

/-! ### Shape lemmas reducing the interceptor bodies -/

theorem alloc_step_eq (g g1 : Globals) (h : HeapGlobals) (sz p idx now : Nat)
    (bt : Backtrace) (hg : g.heap = some h)
    (hpp : g.get_pp_info bt PpInfo.new_heap = (idx, g1)) :
    Alloc.alloc (.Running g) sz (some p) bt now =
      (.Running ((g1.record_block p idx now).update_counts_for_alloc idx sz none now),
        some p) := by
  simp only [Alloc.alloc, hg, hpp]

theorem realloc_step_eq_tracked (g gp : Globals) (h hp0 : HeapGlobals)
    (old oldSz newSz p now : Nat) (bt : Backtrace) (lb : LiveBlock)
    (hg : g.heap = some h)
    (hpeak : (if (Delta.new oldSz newSz).shrinking = true then
        g.check_for_global_peak else g) = gp)
    (hgph : gp.heap = some hp0)
    (hlb : lookupK hp0.live_blocks old = some lb) :
    Alloc.realloc (.Running g) old oldSz newSz (some p) bt now =
      (.Running (((gp.removeLiveBlock old).2.record_block p lb.pp_info_idx now).update_counts_for_alloc
          lb.pp_info_idx newSz (some (Delta.new oldSz newSz)) now), some p) := by
  simp only [Alloc.realloc, hg, hpeak, Globals.removeLiveBlock, hgph, hlb]

theorem realloc_step_eq_untracked (g gp g1 : Globals) (h hp0 : HeapGlobals)
    (old oldSz newSz p idx now : Nat) (bt : Backtrace)
    (hg : g.heap = some h)
    (hpeak : (if (Delta.new oldSz newSz).shrinking = true then
        g.check_for_global_peak else g) = gp)
    (hgph : gp.heap = some hp0)
    (hlb : lookupK hp0.live_blocks old = none)
    (hpp : gp.get_pp_info bt PpInfo.new_heap = (idx, g1)) :
    Alloc.realloc (.Running g) old oldSz newSz (some p) bt now =
      (.Running ((g1.record_block p idx now).update_counts_for_alloc idx newSz none now),
        some p) := by
  simp only [Alloc.realloc, hg, hpeak,
    removeLiveBlock_absent gp hp0 old hgph hlb, hpp]

theorem dealloc_step_eq_tracked (g : Globals) (h : HeapGlobals)
    (p sz now : Nat) (lb : LiveBlock)
    (hg : g.heap = some h) (hlb : lookupK h.live_blocks p = some lb) :
    Alloc.dealloc (.Running g) p sz now =
      .Running ((g.removeLiveBlock p).2.check_for_global_peak.update_counts_for_dealloc
        lb.pp_info_idx sz (now - lb.allocation_instant)) := by
  simp only [Alloc.dealloc, hg, Globals.removeLiveBlock, hlb]

theorem proj_running (g : Globals) (h : HeapGlobals) (hg : g.heap = some h) :
    currBytesOf (.Running g) = h.curr_bytes ∧
    currBlocksOf (.Running g) = h.curr_blocks ∧
    maxBytesOf (.Running g) = h.max_bytes ∧
    maxBlocksOf (.Running g) = h.max_blocks := by
  simp [currBytesOf, currBlocksOf, maxBytesOf, maxBlocksOf, heapOf, hg]

/-- One step of a well-formed event from an invariant state: the invariant is
preserved, the recorded global maximum is the maximum of the previous
recorded maximum and the new current bytes, and either the state is at a
(latest) peak with `max_blocks` equal to `curr_blocks`, or the current bytes
stay strictly below the previous maximum and the peak fields are unchanged. -/
theorem step_master (s : SysState) (e : Event) (hinvs : Inv s)
    (hwf : WFEvent s e = true) :
    Inv (sysStep s e) ∧
    maxBytesOf (sysStep s e).1 =
      max (maxBytesOf s.1) (currBytesOf (sysStep s e).1) ∧
    ((currBytesOf (sysStep s e).1 = maxBytesOf (sysStep s e).1 ∧
      maxBlocksOf (sysStep s e).1 = currBlocksOf (sysStep s e).1) ∨
     (currBytesOf (sysStep s e).1 < maxBytesOf s.1 ∧
      maxBytesOf (sysStep s e).1 = maxBytesOf s.1 ∧
      maxBlocksOf (sysStep s e).1 = maxBlocksOf s.1)) := by
  obtain ⟨ph, sizes⟩ := s
  obtain ⟨g, h, hph, hg, hinv⟩ := hinvs
  simp only at hph
  subst hph
  obtain ⟨pj1, pj2, pj3, pj4⟩ := proj_running g h hg
  cases e with
  | alloc sz sysRet bt now =>
    rcases sysRet with _ | p
    · have hstep : sysStep (Phase.Running g, sizes) (Event.alloc sz none bt now)
          = (Phase.Running g, sizes) := rfl
      rw [hstep]
      refine ⟨⟨g, h, rfl, hg, hinv⟩, ?_, ?_⟩
      · rw [pj1, pj3]
        have := hinv.max_ge
        omega
      · rw [pj1, pj2, pj3, pj4]
        by_cases hcm : h.curr_bytes = h.max_bytes
        · exact Or.inl ⟨hcm, (hinv.tie hcm).symm⟩
        · have := hinv.max_ge
          exact Or.inr ⟨by omega, rfl, rfl⟩
    · simp only [WFEvent, liveOf, hg, Bool.and_eq_true, decide_eq_true_eq,
        Option.isNone_iff_eq_none] at hwf
      obtain ⟨hpos, hlook⟩ := hwf
      rcases hpp : g.get_pp_info bt PpInfo.new_heap with ⟨idx, g1⟩
      obtain ⟨hg1, hinv1, hidx1⟩ := get_pp_info_facts g h sizes bt hg hinv
      rw [hpp] at hg1 hinv1 hidx1
      have hg1' : g1.heap = some h := hg1
      have hinv1' : InvG g1 sizes h := hinv1
      have hidx1' : idx < g1.pp_infos.length := hidx1
      obtain ⟨h3, e_heap, einv, e_cby, e_cblk, e_max, e_tie, e_lt, _, _⟩ :=
        alloc_chain_facts g1 h sizes p idx sz now hg1' hinv1' hidx1' hpos hlook
      have hstep : (sysStep (Phase.Running g, sizes) (Event.alloc sz (some p) bt now)).1
          = .Running ((g1.record_block p idx now).update_counts_for_alloc idx sz none now) := by
        simp only [sysStep, stepPhase, alloc_step_eq g g1 h sz p idx now bt hg hpp]
      have hghost : (sysStep (Phase.Running g, sizes) (Event.alloc sz (some p) bt now)).2
          = updateF sizes p sz := rfl
      obtain ⟨qj1, qj2, qj3, qj4⟩ := proj_running _ h3 e_heap
      refine ⟨⟨_, h3, hstep, e_heap, hghost ▸ einv⟩, ?_, ?_⟩
      · rw [hstep, qj1, qj3, pj3]
        exact e_max
      · rw [hstep, qj1, qj2, qj3, qj4, pj3, pj4]
        rcases Nat.lt_or_ge h3.curr_bytes h.max_bytes with hlt | hge
        · exact Or.inr ⟨hlt, (e_lt hlt).1, (e_lt hlt).2⟩
        · have hcm : h3.curr_bytes = h3.max_bytes := by
            rw [e_max]
            omega
          exact Or.inl ⟨hcm, e_tie hcm⟩
  | realloc old oldSz newSz sysRet bt now =>
    rcases sysRet with _ | p
    · have hstep : sysStep (Phase.Running g, sizes)
          (Event.realloc old oldSz newSz none bt now) = (Phase.Running g, sizes) := rfl
      rw [hstep]
      refine ⟨⟨g, h, rfl, hg, hinv⟩, ?_, ?_⟩
      · rw [pj1, pj3]
        have := hinv.max_ge
        omega
      · rw [pj1, pj2, pj3, pj4]
        by_cases hcm : h.curr_bytes = h.max_bytes
        · exact Or.inl ⟨hcm, (hinv.tie hcm).symm⟩
        · have := hinv.max_ge
          exact Or.inr ⟨by omega, rfl, rfl⟩
    · simp only [WFEvent, liveOf, hg, Bool.and_eq_true, decide_eq_true_eq,
        Option.isNone_iff_eq_none] at hwf
      obtain ⟨⟨⟨hposo, hposn⟩, hmtch⟩, hfresh⟩ := hwf
      obtain ⟨gp, hpeak⟩ : ∃ gp,
          (if (Delta.new oldSz newSz).shrinking = true then
            g.check_for_global_peak else g) = gp := ⟨_, rfl⟩
      have hgp : gp.heap = some h ∧ InvG gp sizes h := by
        rw [← hpeak]
        by_cases hshr : (Delta.new oldSz newSz).shrinking = true
        · rw [if_pos hshr]
          exact InvG_check_peak g h sizes hg hinv
        · rw [if_neg hshr]
          exact ⟨hg, hinv⟩
      rcases hlbo : lookupK h.live_blocks old with _ | lb
      · -- untracked: fresh-alloc path
        rw [hlbo] at hmtch
        rcases hppu : gp.get_pp_info bt PpInfo.new_heap with ⟨idx, g1⟩
        obtain ⟨hg1, hinv1, hidx1⟩ := get_pp_info_facts gp h sizes bt hgp.1 hgp.2
        rw [hppu] at hg1 hinv1 hidx1
        have hg1' : g1.heap = some h := hg1
        have hinv1' : InvG g1 sizes h := hinv1
        have hidx1' : idx < g1.pp_infos.length := hidx1
        have hlookp : lookupK h.live_blocks p = none := by
          rw [← eraseK_eq_of_lookup_none hlbo]
          exact hfresh
        obtain ⟨h3, e_heap, einv, e_cby, e_cblk, e_max, e_tie, e_lt, _, _⟩ :=
          alloc_chain_facts g1 h sizes p idx newSz now hg1' hinv1' hidx1' hposn hlookp
        have hstep : (sysStep (Phase.Running g, sizes)
            (Event.realloc old oldSz newSz (some p) bt now)).1
            = .Running ((g1.record_block p idx now).update_counts_for_alloc idx newSz none now) := by
          simp only [sysStep, stepPhase,
            realloc_step_eq_untracked g gp g1 h h old oldSz newSz p idx now bt
              hg hpeak hgp.1 hlbo hppu]
        have hghost : (sysStep (Phase.Running g, sizes)
            (Event.realloc old oldSz newSz (some p) bt now)).2
            = updateF sizes p newSz := rfl
        obtain ⟨qj1, qj2, qj3, qj4⟩ := proj_running _ h3 e_heap
        refine ⟨⟨_, h3, hstep, e_heap, hghost ▸ einv⟩, ?_, ?_⟩
        · rw [hstep, qj1, qj3, pj3]
          exact e_max
        · rw [hstep, qj1, qj2, qj3, qj4, pj3, pj4]
          rcases Nat.lt_or_ge h3.curr_bytes h.max_bytes with hlt | hge
          · exact Or.inr ⟨hlt, (e_lt hlt).1, (e_lt hlt).2⟩
          · have hcm : h3.curr_bytes = h3.max_bytes := by
              rw [e_max]
              exact (Nat.max_eq_right hge).symm
            exact Or.inl ⟨hcm, e_tie hcm⟩
      · -- tracked
        rw [hlbo, beq_iff_eq] at hmtch
        obtain ⟨h3, e_heap, einv, e_cby, e_cblk, e_max, e_tie, e_lt, _, _, _, _⟩ :=
          realloc_chain_facts gp h sizes old oldSz newSz p now lb hgp.1 hgp.2
            hlbo hmtch hposn hfresh
        have hstep : (sysStep (Phase.Running g, sizes)
            (Event.realloc old oldSz newSz (some p) bt now)).1
            = .Running (((gp.removeLiveBlock old).2.record_block p lb.pp_info_idx now).update_counts_for_alloc
                lb.pp_info_idx newSz (some (Delta.new oldSz newSz)) now) := by
          simp only [sysStep, stepPhase,
            realloc_step_eq_tracked g gp h h old oldSz newSz p now bt lb
              hg hpeak hgp.1 hlbo]
        have hghost : (sysStep (Phase.Running g, sizes)
            (Event.realloc old oldSz newSz (some p) bt now)).2
            = updateF sizes p newSz := rfl
        obtain ⟨qj1, qj2, qj3, qj4⟩ := proj_running _ h3 e_heap
        refine ⟨⟨_, h3, hstep, e_heap, hghost ▸ einv⟩, ?_, ?_⟩
        · rw [hstep, qj1, qj3, pj3]
          exact e_max
        · rw [hstep, qj1, qj2, qj3, qj4, pj3, pj4]
          rcases Nat.lt_or_ge h3.curr_bytes h.max_bytes with hlt | hge
          · exact Or.inr ⟨hlt, (e_lt hlt).1, (e_lt hlt).2⟩
          · have hcm : h3.curr_bytes = h3.max_bytes := by
              rw [e_max]
              exact (Nat.max_eq_right hge).symm
            exact Or.inl ⟨hcm, e_tie hcm⟩
  | dealloc p sz now =>
    simp only [WFEvent, liveOf, hg] at hwf
    rcases hlbo : lookupK h.live_blocks p with _ | lb
    · have hstep : (sysStep (Phase.Running g, sizes) (Event.dealloc p sz now)).1
          = .Running g := by
        simp only [sysStep, stepPhase, dealloc_untracked_eq g h p sz now hg hlbo]
      have hghost : (sysStep (Phase.Running g, sizes) (Event.dealloc p sz now)).2
          = sizes := rfl
      refine ⟨⟨g, h, hstep, hg, hghost ▸ hinv⟩, ?_, ?_⟩
      · rw [hstep, pj1, pj3]
        have := hinv.max_ge
        omega
      · rw [hstep, pj1, pj2, pj3, pj4]
        by_cases hcm : h.curr_bytes = h.max_bytes
        · exact Or.inl ⟨hcm, (hinv.tie hcm).symm⟩
        · have := hinv.max_ge
          exact Or.inr ⟨by omega, rfl, rfl⟩
    · rw [hlbo, beq_iff_eq] at hwf
      obtain ⟨h3, e_heap, einv, e_cby, e_cblk, e_lt, e_maxby, e_maxbk, _, _, _⟩ :=
        dealloc_chain_facts g h sizes p sz (now - lb.allocation_instant) lb
          hg hinv hlbo hwf
      have hstep : (sysStep (Phase.Running g, sizes) (Event.dealloc p sz now)).1
          = .Running ((g.removeLiveBlock p).2.check_for_global_peak.update_counts_for_dealloc
              lb.pp_info_idx sz (now - lb.allocation_instant)) := by
        simp only [sysStep, stepPhase, dealloc_step_eq_tracked g h p sz now lb hg hlbo]
      have hghost : (sysStep (Phase.Running g, sizes) (Event.dealloc p sz now)).2
          = sizes := rfl
      obtain ⟨qj1, qj2, qj3, qj4⟩ := proj_running _ h3 e_heap
      refine ⟨⟨_, h3, hstep, e_heap, hghost ▸ einv⟩, ?_, ?_⟩
      · rw [hstep, qj1, qj3, pj3, e_maxby]
        omega
      · rw [hstep, qj1, qj2, qj3, qj4, pj3, pj4]
        exact Or.inr ⟨e_lt, e_maxby, e_maxbk⟩

theorem Inv_init : Inv initState := by
  refine ⟨initGlobals, HeapGlobals.new, rfl, rfl, ?_⟩
  refine ⟨rfl, rfl, by simp [HeapGlobals.new], ?_, ?_, ?_, Nat.le_refl 0,
    fun _ => rfl, ?_⟩
  · intro kv hm
    simp [HeapGlobals.new] at hm
  · intro kv hm
    simp [HeapGlobals.new] at hm
  · intro kv hm
    simp [initGlobals] at hm
  · intro i pp hget
    simp [initGlobals] at hget

theorem runTrace_cons (s : SysState) (e : Event) (t : List Event) :
    runTrace s (e :: t) = runTrace (sysStep s e) t := by
  simp [runTrace]

theorem traceStates_cons (s : SysState) (e : Event) (t : List Event) :
    traceStates s (e :: t) = s :: traceStates (sysStep s e) t := rfl

/-- Running a well-formed trace from an invariant state keeps the
invariant. -/
theorem run_Inv (es : List Event) :
    ∀ s, Inv s → WFTrace s es = true → Inv (runTrace s es) := by
  induction es with
  | nil => exact fun s hi _ => hi
  | cons e t ih =>
    intro s hi hwf
    simp only [WFTrace, Bool.and_eq_true] at hwf
    rw [runTrace_cons]
    exact ih (sysStep s e) (step_master s e hi hwf.1).1 hwf.2

theorem foldr_max_init (L : List Nat) (A b : Nat) :
    L.foldr max (max A b) = max b (L.foldr max A) := by
  induction L with
  | nil => simp [Nat.max_comm]
  | cons x t ih =>
    simp only [List.foldr_cons, ih]
    omega

/-- Peak tracking over a whole trace: the recorded maximum at the end is the
maximum of the starting recorded maximum and all intermediate current-bytes
values, and the recorded `max_blocks` comes from the latest intermediate
peak, or is inherited unchanged if no intermediate state reaches the
maximum. -/
theorem peak_trace (es : List Event) :
    ∀ s, Inv s → WFTrace s es = true →
    maxBytesOf (runTrace s es).1 =
      ((traceStates s es).tail.map (fun st => currBytesOf st.1)).foldr max
        (maxBytesOf s.1) ∧
    ((∃ pre st post, (traceStates s es).tail = pre ++ st :: post ∧
        currBytesOf st.1 = maxBytesOf (runTrace s es).1 ∧
        currBlocksOf st.1 = maxBlocksOf (runTrace s es).1 ∧
        ∀ st' ∈ post, currBytesOf st'.1 < maxBytesOf (runTrace s es).1) ∨
      (maxBytesOf (runTrace s es).1 = maxBytesOf s.1 ∧
       maxBlocksOf (runTrace s es).1 = maxBlocksOf s.1 ∧
       ∀ st' ∈ (traceStates s es).tail,
         currBytesOf st'.1 < maxBytesOf (runTrace s es).1)) := by
  induction es with
  | nil =>
    intro s _ _
    exact ⟨rfl, Or.inr ⟨rfl, rfl, fun st' hm => absurd hm (by simp [traceStates])⟩⟩
  | cons e t ih =>
    intro s hi hwf
    simp only [WFTrace, Bool.and_eq_true] at hwf
    obtain ⟨hinv', hmax, hdich⟩ := step_master s e hi hwf.1
    obtain ⟨ih1, ih2⟩ := ih (sysStep s e) hinv' hwf.2
    rw [traceStates_cons, runTrace_cons]
    simp only [List.tail_cons]
    constructor
    · have : traceStates (sysStep s e) t =
          sysStep s e :: (traceStates (sysStep s e) t).tail := by
        cases t <;> rfl
      rw [this, List.map_cons, List.foldr_cons, ← foldr_max_init, ← hmax]
      exact ih1
    · have htl : traceStates (sysStep s e) t =
          sysStep s e :: (traceStates (sysStep s e) t).tail := by
        cases t <;> rfl
      rcases ih2 with ⟨pre, st, post, hsplit, hb, hk, hpost⟩ | ⟨hm1, hm2, hall⟩
      · refine Or.inl ⟨sysStep s e :: pre, st, post, ?_, hb, hk, hpost⟩
        rw [htl, hsplit]
        rfl
      · rcases hdich with ⟨hceq, hkeq⟩ | ⟨hlt, hmeq, hkeq⟩
        · refine Or.inl ⟨[], sysStep s e, (traceStates (sysStep s e) t).tail,
            by rw [htl]; rfl, ?_, ?_, ?_⟩
          · rw [hceq, ← hm1]
          · rw [hm2, hkeq]
          · exact hall
        · refine Or.inr ⟨hm1.trans hmeq, hm2.trans hkeq, ?_⟩
          intro st' hm
          rw [htl] at hm
          rcases List.mem_cons.mp hm with hh | hh
          · rw [hh, hm1.trans hmeq]
            exact hlt
          · exact hall st' hh

/-! ### Scrub lemmas: states compared modulo the at_tgmax snapshot fields -/

theorem check_peak_fields (g : Globals) :
    g.check_for_global_peak.heap = g.heap ∧
    g.check_for_global_peak.total_blocks = g.total_blocks ∧
    g.check_for_global_peak.total_bytes = g.total_bytes ∧
    g.check_for_global_peak.backtraces = g.backtraces ∧
    g.check_for_global_peak.pp_infos.length = g.pp_infos.length := by
  rcases check_peak_shape g with hsh | hsh <;> rw [hsh]
  · exact ⟨rfl, rfl, rfl, rfl, rfl⟩
  · exact ⟨rfl, rfl, rfl, rfl, by simp⟩

theorem scrubPp_snapshot (pp : PpInfo) :
    scrubPp pp.snapshot_at_tgmax = scrubPp pp := by
  rcases pp with ⟨tb, tby, _ | hp⟩ <;> rfl

theorem scrubG_check_peak (g : Globals) :
    scrubG g.check_for_global_peak = scrubG g := by
  rcases check_peak_shape g with hsh | hsh <;> rw [hsh]
  unfold scrubG
  simp only [List.map_map]
  congr 1
  exact List.map_congr_left (fun pp _ => scrubPp_snapshot pp)

theorem scrubG_eq_iff (gA gB : Globals) :
    scrubG gA = scrubG gB ↔
      gA.testing = gB.testing ∧ gA.file_name = gB.file_name ∧
      gA.trim_backtraces = gB.trim_backtraces ∧
      gA.eprint_json = gB.eprint_json ∧ gA.start_bt = gB.start_bt ∧
      gA.frames_to_trim = gB.frames_to_trim ∧
      gA.start_instant = gB.start_instant ∧
      gA.pp_infos.map scrubPp = gB.pp_infos.map scrubPp ∧
      gA.backtraces = gB.backtraces ∧ gA.total_blocks = gB.total_blocks ∧
      gA.total_bytes = gB.total_bytes ∧ gA.heap = gB.heap := by
  unfold scrubG
  rw [Globals.mk.injEq]

theorem scrubPp_eq_iff (ppA ppB : PpInfo) :
    scrubPp ppA = scrubPp ppB ↔
      ppA.total_blocks = ppB.total_blocks ∧
      ppA.total_bytes = ppB.total_bytes ∧
      ppA.heap.map scrubHp = ppB.heap.map scrubHp := by
  unfold scrubPp
  rw [PpInfo.mk.injEq]

theorem scrubHp_eq_iff (hA hB : HeapPpInfo) :
    scrubHp hA = scrubHp hB ↔
      hA.curr_blocks = hB.curr_blocks ∧ hA.curr_bytes = hB.curr_bytes ∧
      hA.max_blocks = hB.max_blocks ∧ hA.max_bytes = hB.max_bytes ∧
      hA.total_lifetimes_duration = hB.total_lifetimes_duration := by
  unfold scrubHp
  rw [HeapPpInfo.mk.injEq]
  simp

theorem scrub_get_pp_info (gA gB : Globals) (bt : Backtrace) (d : PpInfo)
    (hrel : scrubG gA = scrubG gB) (hd : scrubPp d = d) :
    (gA.get_pp_info bt d).1 = (gB.get_pp_info bt d).1 ∧
    scrubG (gA.get_pp_info bt d).2 = scrubG (gB.get_pp_info bt d).2 := by
  obtain ⟨h1, h2, h3, h4, h5, h6, h7, hpps, hbts, h10, h11, h12⟩ :=
    (scrubG_eq_iff gA gB).mp hrel
  have hlen : gA.pp_infos.length = gB.pp_infos.length := by
    have := congrArg List.length hpps
    simpa using this
  unfold Globals.get_pp_info
  rw [hbts]
  rcases lookupBt gB.backtraces bt with _ | idx
  · refine ⟨hlen, ?_⟩
    rw [scrubG_eq_iff]
    refine ⟨h1, h2, h3, h4, h5, h6, h7, ?_, ?_, h10, h11, h12⟩
    · show (gA.pp_infos ++ [d]).map scrubPp = (gB.pp_infos ++ [d]).map scrubPp
      simp only [List.map_append, hpps, List.map_cons, List.map_nil, hd]
    · show (bt, gA.pp_infos.length) :: gB.backtraces =
        (bt, gB.pp_infos.length) :: gB.backtraces
      rw [hlen]
  · exact ⟨rfl, hrel⟩

theorem scrub_record_block (gA gB : Globals) (p idx now : Nat)
    (hrel : scrubG gA = scrubG gB) :
    scrubG (gA.record_block p idx now) = scrubG (gB.record_block p idx now) := by
  obtain ⟨h1, h2, h3, h4, h5, h6, h7, hpps, hbts, h10, h11, h12⟩ :=
    (scrubG_eq_iff gA gB).mp hrel
  unfold Globals.record_block
  rw [h12]
  rcases gB.heap with _ | hB
  · exact hrel
  · rw [scrubG_eq_iff]
    exact ⟨h1, h2, h3, h4, h5, h6, h7, hpps, hbts, h10, h11, rfl⟩

theorem scrubPp_update_alloc (ppA ppB : PpInfo) (sz : Nat) (delta : Option Delta)
    (hrel : scrubPp ppA = scrubPp ppB) :
    scrubPp (ppA.update_counts_for_alloc sz delta) =
      scrubPp (ppB.update_counts_for_alloc sz delta) := by
  obtain ⟨h1, h2, hheap⟩ := (scrubPp_eq_iff ppA ppB).mp hrel
  unfold PpInfo.update_counts_for_alloc
  rcases hA : ppA.heap with _ | hpA <;> rcases hB : ppB.heap with _ | hpB <;>
    rw [hA, hB] at hheap <;> simp only [Option.map_none', Option.map_some'] at hheap
  · rw [scrubPp_eq_iff]
    simp [h1, h2, hA, hB]
  · exact absurd hheap (by simp)
  · exact absurd hheap (by simp)
  · rw [Option.some_inj] at hheap
    obtain ⟨e1, e2, e3, e4, e5⟩ := (scrubHp_eq_iff hpA hpB).mp hheap
    rw [scrubPp_eq_iff]
    refine ⟨by simp [h1], by simp [h2], ?_⟩
    simp only [Option.map_some', Option.some_inj]
    rcases delta with _ | d <;>
      simp only [e1, e2, e4] <;>
      split_ifs <;>
      (rw [scrubHp_eq_iff]; simp [e1, e2, e3, e4, e5])

theorem map_scrub_modifyAt (lA lB : List PpInfo) (idx sz : Nat)
    (delta : Option Delta) (hrel : lA.map scrubPp = lB.map scrubPp) :
    (modifyAt lA idx (fun pp => pp.update_counts_for_alloc sz delta)).map scrubPp =
      (modifyAt lB idx (fun pp => pp.update_counts_for_alloc sz delta)).map scrubPp := by
  apply List.ext_getElem?
  intro n
  have hn : (lA[n]?).map scrubPp = (lB[n]?).map scrubPp := by
    have := congrArg (fun l => l[n]?) hrel
    simpa [List.getElem?_map] using this
  rw [List.getElem?_map, List.getElem?_map, modifyAt_getElem?, modifyAt_getElem?]
  by_cases hin : idx = n
  · rw [if_pos hin, if_pos hin]
    rcases hA : lA[n]? with _ | a <;> rcases hB : lB[n]? with _ | b <;>
      rw [hA, hB] at hn <;> simp only [Option.map_none', Option.map_some'] at hn ⊢
    · exact absurd hn (by simp)
    · exact absurd hn (by simp)
    · rw [Option.some_inj] at hn ⊢
      exact scrubPp_update_alloc a b sz delta hn
  · rw [if_neg hin, if_neg hin]
    exact hn

theorem scrub_update_alloc (gA gB : Globals) (idx sz : Nat)
    (delta : Option Delta) (now : Nat) (hrel : scrubG gA = scrubG gB) :
    scrubG (gA.update_counts_for_alloc idx sz delta now) =
      scrubG (gB.update_counts_for_alloc idx sz delta now) := by
  obtain ⟨h1, h2, h3, h4, h5, h6, h7, hpps, hbts, h10, h11, h12⟩ :=
    (scrubG_eq_iff gA gB).mp hrel
  unfold Globals.update_counts_for_alloc
  rw [h12]
  rcases gB.heap with _ | hB
  · rw [scrubG_eq_iff]
    exact ⟨h1, h2, h3, h4, h5, h6, h7, hpps, hbts,
      congrArg (fun x => x + 1) h10, congrArg (fun x => x + sz) h11, rfl⟩
  · rw [scrubG_eq_iff]
    exact ⟨h1, h2, h3, h4, h5, h6, h7,
      map_scrub_modifyAt gA.pp_infos gB.pp_infos idx sz delta hpps, hbts,
      congrArg (fun x => x + 1) h10, congrArg (fun x => x + sz) h11, rfl⟩

theorem check_peak_heap_eq (g : Globals) :
    g.check_for_global_peak.heap = g.heap := (check_peak_fields g).1

/-- An untracked realloc (old address not live) has, modulo the `at_tgmax`
snapshot fields, exactly the effect of a fresh alloc of the new size. -/
theorem realloc_untracked_scrub (ph : Phase) (old oldSz newSz p now : Nat)
    (bt : Backtrace) (hlb : lookupK (liveOf ph) old = none) :
    scrubPhase (Alloc.realloc ph old oldSz newSz (some p) bt now).1 =
      scrubPhase (Alloc.alloc ph newSz (some p) bt now).1 ∧
    (Alloc.realloc ph old oldSz newSz (some p) bt now).2 =
      (Alloc.alloc ph newSz (some p) bt now).2 := by
  cases ph with
  | Ready => exact ⟨rfl, rfl⟩
  | PostAssert => exact ⟨rfl, rfl⟩
  | Running g =>
    rcases hg : g.heap with _ | h
    · refine ⟨?_, ?_⟩ <;> simp [Alloc.realloc, Alloc.alloc, hg, scrubPhase]
    · simp only [liveOf, hg] at hlb
      obtain ⟨gp, hpeak⟩ : ∃ gp,
          (if (Delta.new oldSz newSz).shrinking = true then
            g.check_for_global_peak else g) = gp := ⟨_, rfl⟩
      have hgph : gp.heap = some h := by
        rw [← hpeak]
        by_cases hshr : (Delta.new oldSz newSz).shrinking = true
        · rw [if_pos hshr, check_peak_heap_eq]
          exact hg
        · rw [if_neg hshr]
          exact hg
      have hrel0 : scrubG gp = scrubG g := by
        rw [← hpeak]
        by_cases hshr : (Delta.new oldSz newSz).shrinking = true
        · rw [if_pos hshr]
          exact scrubG_check_peak g
        · rw [if_neg hshr]
      rcases hppu : gp.get_pp_info bt PpInfo.new_heap with ⟨idxR, gR⟩
      rcases hppa : g.get_pp_info bt PpInfo.new_heap with ⟨idxA, gA⟩
      obtain ⟨hidx_eq, hrel1⟩ := scrub_get_pp_info gp g bt PpInfo.new_heap hrel0 rfl
      rw [hppu, hppa] at hidx_eq hrel1
      have hidx_eq' : idxR = idxA := hidx_eq
      have hrel1' : scrubG gR = scrubG gA := hrel1
      subst hidx_eq'
      rw [realloc_step_eq_untracked g gp gR h h old oldSz newSz p idxR now bt
        hg hpeak hgph hlb hppu,
        alloc_step_eq g gA h newSz p idxR now bt hg hppa]
      refine ⟨?_, rfl⟩
      simp only [scrubPhase]
      exact congrArg Phase.Running (scrub_update_alloc _ _ idxR newSz none now
        (scrub_record_block gR gA p idxR now hrel1'))

/-- `get_pp_info` never changes the running totals. -/
theorem get_pp_info_totals (g : Globals) (bt : Backtrace) (d : PpInfo) :
    (g.get_pp_info bt d).2.total_blocks = g.total_blocks ∧
    (g.get_pp_info bt d).2.total_bytes = g.total_bytes := by
  unfold Globals.get_pp_info
  rcases lookupBt g.backtraces bt with _ | idx <;> exact ⟨rfl, rfl⟩

/-- The erased key itself never remains in the table. -/
theorem not_mem_fst_eraseK {α : Type} (l : List (Nat × α)) (p : Nat) :
    p ∉ (eraseK l p).map Prod.fst := by
  intro hmem
  rw [List.mem_map] at hmem
  obtain ⟨kv, hkv, hfst⟩ := hmem
  simp only [eraseK] at hkv
  have h2 : (kv.1 != p) = true := by simpa using List.of_mem_filter hkv
  rw [hfst] at h2
  simp at h2

/-! ### Trim-walk lemmas (claim C10) -/

theorem mem_retainTB {keep : TB} {m : List (Nat × TB)} {kv : Nat × TB}
    (h : kv ∈ retainTB keep m) : kv.2 = keep := by
  simp only [retainTB, List.mem_filter] at h
  simpa using h.2

theorem mem_retainTB_sub {keep : TB} {m : List (Nat × TB)} {kv : Nat × TB}
    (h : kv ∈ retainTB keep m) : kv ∈ m :=
  List.mem_of_mem_filter h

theorem mem_insertKey {m : List (Nat × TB)} {k : Nat} {v : TB} {kv : Nat × TB}
    (h : kv ∈ insertKey m k v) : kv = (k, v) ∨ kv ∈ m := by
  simp only [insertKey, List.mem_cons] at h
  rcases h with h | h
  · exact Or.inl h
  · exact Or.inr (List.mem_of_mem_filter h)

theorem cpl_cons (a b : Nat) (t1 t2 : List Nat) :
    cpl (a :: t1) (b :: t2) = if a = b then cpl t1 t2 + 1 else 0 := rfl

theorem trimDiscard_nil_left (l2 : List Nat) : trimDiscard [] l2 := by
  simp [trimDiscard]

theorem trimDiscard_nil_right (l1 : List Nat) : trimDiscard l1 [] := by
  simp [trimDiscard]

/-- If a lockstep walk would consume an entire stack, every entry of the
resulting map has the `keep` marker (the walk reaches the discarding
`retain`). -/
theorem walkLoop_discard (mark keep : TB) :
    ∀ (f1 f2 : List Frame) (m : List (Nat × TB)), f1 ≠ [] → f2 ≠ [] →
      trimDiscard (f1.map Frame.ip) (f2.map Frame.ip) →
      ∀ kv ∈ walkLoop mark keep m f1 f2, kv.2 = keep := by
  intro f1
  induction f1 with
  | nil => intro f2 m h1; exact absurd rfl h1
  | cons a t1 ih =>
    intro f2 m _ h2 hd kv hmem
    cases f2 with
    | nil => exact absurd rfl h2
    | cons b t2 =>
      by_cases he : (t1.isEmpty || t2.isEmpty) = true
      · rw [walkLoop, if_pos he] at hmem
        exact mem_retainTB hmem
      · have hef : (t1.isEmpty || t2.isEmpty) = false := Bool.eq_false_iff.mpr he
        have ht1 : t1 ≠ [] := by
          intro hc; rw [hc] at hef; simp at hef
        have ht2 : t2 ≠ [] := by
          intro hc; rw [hc] at hef; simp at hef
        have hl1 : 1 ≤ t1.length := List.length_pos.mpr ht1
        have hl2 : 1 ≤ t2.length := List.length_pos.mpr ht2
        unfold trimDiscard at hd
        simp only [List.map_cons, List.length_cons, List.length_map] at hd
        have hcpl1 : 1 ≤ cpl (a.ip :: t1.map Frame.ip) (b.ip :: t2.map Frame.ip) := by
          omega
        have hab : a.ip = b.ip := by
          by_contra hne
          rw [cpl_cons, if_neg hne] at hcpl1
          omega
        rw [walkLoop, if_neg (by simp [hef]), if_pos hab] at hmem
        refine ih t2 (insertKey m a.ip mark) ht1 ht2 ?_ kv hmem
        unfold trimDiscard
        rw [cpl_cons, if_pos hab] at hd
        simp only [List.length_map]
        omega

/-- A lockstep walk over a map whose entries all carry `mark` produces a map
whose entries all carry `mark`. -/
theorem walkLoop_all_mark (mark keep : TB) :
    ∀ (f1 f2 : List Frame) (m : List (Nat × TB)),
      (∀ kv ∈ m, kv.2 = mark) →
      ∀ kv ∈ walkLoop mark keep m f1 f2, kv.2 = mark := by
  intro f1
  induction f1 with
  | nil =>
    intro f2 m hm kv hmem
    cases f2 <;> exact hm kv hmem
  | cons a t1 ih =>
    intro f2 m hm kv hmem
    cases f2 with
    | nil => exact hm kv hmem
    | cons b t2 =>
      by_cases he : (t1.isEmpty || t2.isEmpty) = true
      · rw [walkLoop, if_pos he] at hmem
        exact hm kv (mem_retainTB_sub hmem)
      · have hef : (t1.isEmpty || t2.isEmpty) = false := Bool.eq_false_iff.mpr he
        by_cases hab : a.ip = b.ip
        · rw [walkLoop, if_neg (by simp [hef]), if_pos hab] at hmem
          refine ih t2 (insertKey m a.ip mark) ?_ kv hmem
          intro kv' hkv'
          rcases mem_insertKey hkv' with h | h
          · rw [h]
          · exact hm kv' h
        · rw [walkLoop, if_neg (by simp [hef]), if_neg hab] at hmem
          exact hm kv hmem

/-- When no discard happens, the lockstep walk inserts exactly the
lockstep-equal prefix of the first list's ips, marked `mark`. -/
theorem walkLoop_no_discard (mark keep : TB) :
    ∀ (f1 f2 : List Frame) (m : List (Nat × TB)),
      ¬ trimDiscard (f1.map Frame.ip) (f2.map Frame.ip) →
      walkLoop mark keep m f1 f2 =
        ((f1.map Frame.ip).take
            (cpl (f1.map Frame.ip) (f2.map Frame.ip))).foldl
          (fun acc ip => insertKey acc ip mark) m := by
  intro f1
  induction f1 with
  | nil => intro f2 m hnd; exact absurd (trimDiscard_nil_left _) hnd
  | cons a t1 ih =>
    intro f2 m hnd
    cases f2 with
    | nil => exact absurd (trimDiscard_nil_right _) hnd
    | cons b t2 =>
      by_cases he : (t1.isEmpty || t2.isEmpty) = true
      · exfalso
        apply hnd
        unfold trimDiscard
        rcases Bool.or_eq_true_iff.mp he with h | h
        · rw [List.isEmpty_iff.mp h]
          simp
        · rw [List.isEmpty_iff.mp h]
          simp
      · have hef : (t1.isEmpty || t2.isEmpty) = false := Bool.eq_false_iff.mpr he
        by_cases hab : a.ip = b.ip
        · rw [walkLoop, if_neg (by simp [hef]), if_pos hab]
          simp only [List.map_cons, cpl_cons, if_pos hab, List.take_succ_cons,
            List.foldl_cons]
          refine (ih t2 (insertKey m a.ip mark) ?_).trans rfl
          intro hc
          apply hnd
          unfold trimDiscard at hc ⊢
          simp only [List.map_cons, List.length_cons, cpl_cons, if_pos hab]
          simp only [List.length_map] at hc ⊢
          omega
        · rw [walkLoop, if_neg (by simp [hef]), if_neg hab]
          simp [cpl_cons, hab]

/-- Lookup after folding insertions of a fixed marker. -/
theorem lookupK_foldl_insertKey (v : TB) :
    ∀ (ips : List Nat) (m : List (Nat × TB)) (x : Nat),
      lookupK (ips.foldl (fun acc ip => insertKey acc ip v) m) x =
        if x ∈ ips then some v else lookupK m x := by
  intro ips
  induction ips with
  | nil => intro m x; simp
  | cons ip rest ih =>
    intro m x
    simp only [List.foldl_cons]
    rw [ih]
    by_cases hx : x ∈ rest
    · simp [hx]
    · by_cases hxi : x = ip
      · simp [hx, hxi, insertKey, lookupK]
      · simp only [insertKey, lookupK, List.mem_cons, hx, hxi, if_neg,
          or_self, if_false]
        rw [if_neg (fun hc => hxi hc.symm)]
        exact lookupK_eraseK_of_ne m ip x hxi

/-- Claim C10: the top (resp. bottom) lockstep walk of
`Backtrace::get_frames_to_trim` marks ips as `Top` (resp. `Bottom`) exactly
while the two backtraces' ips agree, and when a walk would consume an entire
stack (reach the last frame of either list, resp. the first), the whole set
of that kind is discarded, leaving only entries of the other kind. -/
theorem claim_C10_trim_walks (bt sbt : Backtrace)
    (h1 : bt.frames ≠ []) (h2 : sbt.frames ≠ []) :
    (¬ trimDiscard (bt.frames.map Frame.ip) (sbt.frames.map Frame.ip) →
     ¬ trimDiscard (bt.frames.reverse.map Frame.ip)
        (sbt.frames.reverse.map Frame.ip) →
      ∀ x : Nat,
        lookupK (Backtrace.get_frames_to_trim bt sbt) x =
          if x ∈ (bt.frames.reverse.map Frame.ip).take
              (cpl (bt.frames.reverse.map Frame.ip)
                (sbt.frames.reverse.map Frame.ip)) then some TB.Bottom
          else if x ∈ (bt.frames.map Frame.ip).take
              (cpl (bt.frames.map Frame.ip) (sbt.frames.map Frame.ip)) then
            some TB.Top
          else none) ∧
    (trimDiscard (bt.frames.map Frame.ip) (sbt.frames.map Frame.ip) →
      ∀ kv ∈ Backtrace.get_frames_to_trim bt sbt, kv.2 = TB.Bottom) ∧
    (trimDiscard (bt.frames.reverse.map Frame.ip)
        (sbt.frames.reverse.map Frame.ip) →
      ∀ kv ∈ Backtrace.get_frames_to_trim bt sbt, kv.2 = TB.Top) := by
  refine ⟨fun hnt hnb x => ?_, fun hd kv hmem => ?_, fun hd kv hmem => ?_⟩
  · unfold Backtrace.get_frames_to_trim
    rw [walkLoop_no_discard TB.Top TB.Bottom _ _ _ hnt,
      walkLoop_no_discard TB.Bottom TB.Top _ _ _ hnb,
      lookupK_foldl_insertKey, lookupK_foldl_insertKey]
    split_ifs <;> rfl
  · unfold Backtrace.get_frames_to_trim at hmem
    refine walkLoop_all_mark TB.Bottom TB.Top _ _ _ ?_ kv hmem
    intro kv' hkv'
    exact walkLoop_discard TB.Top TB.Bottom bt.frames sbt.frames [] h1 h2 hd kv' hkv'
  · unfold Backtrace.get_frames_to_trim at hmem
    have hr1 : bt.frames.reverse ≠ [] := by simpa using h1
    have hr2 : sbt.frames.reverse ≠ [] := by simpa using h2
    exact walkLoop_discard TB.Bottom TB.Top _ _ _ hr1 hr2 hd kv hmem

/-- Witness for C10: concrete backtraces where neither walk discards; ip 7 is
bottom-trimmed. -/
theorem claim_C10_witness :
    lookupK
      (Backtrace.get_frames_to_trim
        { frames := [⟨1,0⟩,⟨2,0⟩,⟨5,0⟩,⟨6,0⟩,⟨7,0⟩,⟨8,0⟩] }
        { frames := [⟨1,0⟩,⟨2,0⟩,⟨9,0⟩,⟨7,0⟩,⟨8,0⟩] }) 7 = some TB.Bottom := by
  have h := (claim_C10_trim_walks
      { frames := [⟨1,0⟩,⟨2,0⟩,⟨5,0⟩,⟨6,0⟩,⟨7,0⟩,⟨8,0⟩] }
      { frames := [⟨1,0⟩,⟨2,0⟩,⟨9,0⟩,⟨7,0⟩,⟨8,0⟩] }
      (by decide) (by decide)).1 (by decide) (by decide) 7
  rw [h]
  decide

/-- Claim C1: after any well-formed heap-mode event sequence, the global
`max_bytes` equals the maximum of `curr_bytes` over all prefixes of the
sequence, and `max_blocks` equals `curr_blocks` at the latest prefix whose
`curr_bytes` equals that maximum (ties resolve to the latest state). -/
theorem claim_C1_global_peak (es : List Event)
    (hwf : WFTrace initState es = true) :
    maxBytesOf (runTrace initState es).1 =
      ((traceStates initState es).map (fun st => currBytesOf st.1)).foldr max 0 ∧
    ∃ pre st post, traceStates initState es = pre ++ st :: post ∧
      currBytesOf st.1 =
        ((traceStates initState es).map (fun st => currBytesOf st.1)).foldr max 0 ∧
      currBlocksOf st.1 = maxBlocksOf (runTrace initState es).1 ∧
      ∀ st' ∈ post, currBytesOf st'.1 ≠
        ((traceStates initState es).map (fun st => currBytesOf st.1)).foldr max 0 := by
  obtain ⟨h1, h2⟩ := peak_trace es initState Inv_init hwf
  have htl : traceStates initState es =
      initState :: (traceStates initState es).tail := by
    cases es <;> rfl
  have hmax0 : maxBytesOf initState.1 = 0 := rfl
  rw [hmax0] at h1
  have hfull : ((traceStates initState es).map (fun st => currBytesOf st.1)).foldr max 0
      = ((traceStates initState es).tail.map (fun st => currBytesOf st.1)).foldr max 0 := by
    conv_lhs => rw [htl]
    rw [List.map_cons, List.foldr_cons]
    have : currBytesOf initState.1 = 0 := rfl
    rw [this]
    omega
  have h1' : maxBytesOf (runTrace initState es).1
      = ((traceStates initState es).map (fun st => currBytesOf st.1)).foldr max 0 := by
    rw [hfull]
    exact h1
  refine ⟨h1', ?_⟩
  rcases h2 with ⟨pre, st, post, hsplit, hb, hk, hpost⟩ | ⟨hm1, hm2, hall⟩
  · refine ⟨initState :: pre, st, post, ?_, ?_, hk, ?_⟩
    · rw [htl, hsplit]
      rfl
    · rw [hb, h1']
    · intro st' hm
      exact h1' ▸ Nat.ne_of_lt (hpost st' hm)
  · rw [hmax0] at hm1
    refine ⟨[], initState, (traceStates initState es).tail, by rw [htl]; rfl,
      ?_, ?_, ?_⟩
    · exact (h1'.symm.trans hm1).symm
    · exact hm2.symm
    · intro st' hm
      have := hall st' hm
      rw [hm1] at this
      exact absurd this (Nat.not_lt_zero _)

/-- Witness for C1 at a concrete four-event trace: the peak 768 is tracked. -/
theorem claim_C1_witness :
    maxBytesOf (runTrace initState
      [Event.alloc 256 (some 100) ⟨[⟨1, 0⟩]⟩ 1,
       Event.alloc 256 (some 200) ⟨[⟨2, 0⟩]⟩ 2,
       Event.alloc 256 (some 300) ⟨[⟨3, 0⟩]⟩ 3,
       Event.dealloc 300 256 4]).1 = 768 := by
  have h := (claim_C1_global_peak
    [Event.alloc 256 (some 100) ⟨[⟨1, 0⟩]⟩ 1,
     Event.alloc 256 (some 200) ⟨[⟨2, 0⟩]⟩ 2,
     Event.alloc 256 (some 300) ⟨[⟨3, 0⟩]⟩ 3,
     Event.dealloc 300 256 4] (by decide)).1
  rw [h]
  decide

/-- Claim C2: after any well-formed heap-mode event sequence the profiler is
still running in heap mode, `curr_bytes` is the sum of the sizes of the
blocks in the live-block table, `curr_blocks` is the number of entries, and
no address appears twice. -/
theorem claim_C2_live_accounting (es : List Event)
    (hwf : WFTrace initState es = true) :
    isRunningHeap (runTrace initState es).1 = true ∧
    currBytesOf (runTrace initState es).1 =
      liveBytes (runTrace initState es).2 (liveOf (runTrace initState es).1) ∧
    currBlocksOf (runTrace initState es).1 =
      (liveOf (runTrace initState es).1).length ∧
    ((liveOf (runTrace initState es).1).map Prod.fst).Nodup := by
  obtain ⟨g, h, hph, hg, hinv⟩ := run_Inv es initState Inv_init hwf
  rw [hph]
  simp only [isRunningHeap, liveOf, currBytesOf, currBlocksOf, heapOf, hg,
    Option.isSome_some]
  exact ⟨trivial, hinv.curr_bytes_eq, hinv.curr_blocks_eq, hinv.nodupKeys⟩

/-- Witness for C2 at the concrete four-event trace. -/
theorem claim_C2_witness :
    isRunningHeap (runTrace initState
      [Event.alloc 256 (some 100) ⟨[⟨1, 0⟩]⟩ 1,
       Event.alloc 256 (some 200) ⟨[⟨2, 0⟩]⟩ 2,
       Event.alloc 256 (some 300) ⟨[⟨3, 0⟩]⟩ 3,
       Event.dealloc 300 256 4]).1 = true :=
  (claim_C2_live_accounting
    [Event.alloc 256 (some 100) ⟨[⟨1, 0⟩]⟩ 1,
     Event.alloc 256 (some 200) ⟨[⟨2, 0⟩]⟩ 2,
     Event.alloc 256 (some 300) ⟨[⟨3, 0⟩]⟩ 3,
     Event.dealloc 300 256 4] (by decide)).1

/-- Claim C4: after any well-formed heap-mode event sequence, every program
point carries heap statistics with `total_bytes ≥ max_bytes ≥ curr_bytes`. -/
theorem claim_C4_pp_ordering (es : List Event)
    (hwf : WFTrace initState es = true) :
    ∀ pp ∈ ppInfosOf (runTrace initState es).1,
      pp.heap.isSome = true ∧
      ppCurrBytes pp ≤ ppMaxBytes pp ∧
      ppMaxBytes pp ≤ pp.total_bytes := by
  obtain ⟨g, h, hph, hg, hinv⟩ := run_Inv es initState Inv_init hwf
  intro pp hm
  rw [hph] at hm
  simp only [ppInfosOf] at hm
  obtain ⟨i, hi, hget⟩ := List.getElem_of_mem hm
  obtain ⟨hp, hheap, _, _, p3, p4⟩ := hinv.pp_inv i pp
    (by rw [List.getElem?_eq_getElem hi, hget])
  refine ⟨by rw [hheap]; rfl, ?_, ?_⟩
  · simp only [ppCurrBytes, ppMaxBytes, hheap]
    exact p3
  · simp only [ppMaxBytes, hheap]
    exact p4

/-- Witness for C4: the concrete PP produced by a single 256-byte alloc. -/
theorem claim_C4_witness :
    ppCurrBytes (PpInfo.mk 1 256 (some (HeapPpInfo.mk 1 256 1 256 0 0 0))) ≤
      ppMaxBytes (PpInfo.mk 1 256 (some (HeapPpInfo.mk 1 256 1 256 0 0 0))) :=
  (claim_C4_pp_ordering [Event.alloc 256 (some 100) ⟨[⟨1, 0⟩]⟩ 1] (by decide)
    _ (by decide)).2.1

/-- Witness for C9: two captures with the same ips but different symbol
metadata resolve to the same PP index without growing the table. -/
theorem claim_C9_witness :
    Backtrace.beq { frames := [⟨7, 0⟩, ⟨8, 1⟩] } { frames := [⟨7, 5⟩, ⟨8, 6⟩] } = true ∧
    Globals.get_pp_info
        (Globals.get_pp_info initGlobals { frames := [⟨7, 0⟩, ⟨8, 1⟩] } PpInfo.new_heap).2
        { frames := [⟨7, 5⟩, ⟨8, 6⟩] } PpInfo.new_heap =
      Globals.get_pp_info initGlobals { frames := [⟨7, 0⟩, ⟨8, 1⟩] } PpInfo.new_heap :=
  ⟨by decide,
    claim_C9_backtrace_pp_idempotent.2.2 initGlobals _ _ PpInfo.new_heap (by decide)⟩

/-- Claim C3 (counterexample): an untracked realloc is not equivalent to a
fresh alloc on all counters. A shrinking untracked realloc arriving at a
global peak runs `check_for_global_peak`, refreshing the per-PP
`at_tgmax_bytes` snapshot (10 here), while the fresh alloc it is claimed to
equal leaves it untouched (0). Both events are well-formed continuations of
the same well-formed one-alloc trace, and the realloc's old address 999 is
not in the live-block table. -/
theorem claim_C3_counterexample :
    WFTrace initState [Event.alloc 10 (some 100) ⟨[⟨1, 0⟩]⟩ 1] = true ∧
    WFEvent (runTrace initState [Event.alloc 10 (some 100) ⟨[⟨1, 0⟩]⟩ 1])
      (Event.realloc 999 20 5 (some 200) ⟨[⟨2, 0⟩]⟩ 2) = true ∧
    WFEvent (runTrace initState [Event.alloc 10 (some 100) ⟨[⟨1, 0⟩]⟩ 1])
      (Event.alloc 5 (some 200) ⟨[⟨2, 0⟩]⟩ 2) = true ∧
    lookupK (liveOf (runTrace initState
      [Event.alloc 10 (some 100) ⟨[⟨1, 0⟩]⟩ 1]).1) 999 = none ∧
    ppAtTgmaxBytesAt (sysStep (runTrace initState
        [Event.alloc 10 (some 100) ⟨[⟨1, 0⟩]⟩ 1])
      (Event.realloc 999 20 5 (some 200) ⟨[⟨2, 0⟩]⟩ 2)).1 0 = 10 ∧
    ppAtTgmaxBytesAt (sysStep (runTrace initState
        [Event.alloc 10 (some 100) ⟨[⟨1, 0⟩]⟩ 1])
      (Event.alloc 5 (some 200) ⟨[⟨2, 0⟩]⟩ 2)).1 0 = 0 := by
  decide

/-- Claim C3 (amended): an intercepted non-null realloc from a reachable
well-formed state raises `total_blocks` by 1 and `total_bytes` by the new
size. If the old address is tracked, global and per-PP `curr_blocks` are
unchanged, global and per-PP `curr_bytes` shift by the signed delta, and the
live entry is re-keyed to the new address under the same PP. If the old
address is untracked, the effect equals that of a fresh alloc of the new
size on all counters except the per-PP `at_tgmax` snapshot fields, which a
shrinking realloc may refresh by running the global-peak check: the
resulting states agree after scrubbing those fields. -/
theorem claim_C3_realloc_effects (es : List Event) (old oldSz newSz p now : Nat)
    (bt : Backtrace) (hwf : WFTrace initState es = true)
    (hwfe : WFEvent (runTrace initState es)
      (Event.realloc old oldSz newSz (some p) bt now) = true) :
    totalBlocksOf (sysStep (runTrace initState es)
        (Event.realloc old oldSz newSz (some p) bt now)).1 =
      totalBlocksOf (runTrace initState es).1 + 1 ∧
    totalBytesOf (sysStep (runTrace initState es)
        (Event.realloc old oldSz newSz (some p) bt now)).1 =
      totalBytesOf (runTrace initState es).1 + newSz ∧
    (∀ lb, lookupK (liveOf (runTrace initState es).1) old = some lb →
      currBlocksOf (sysStep (runTrace initState es)
          (Event.realloc old oldSz newSz (some p) bt now)).1 =
        currBlocksOf (runTrace initState es).1 ∧
      currBytesOf (sysStep (runTrace initState es)
          (Event.realloc old oldSz newSz (some p) bt now)).1 + oldSz =
        currBytesOf (runTrace initState es).1 + newSz ∧
      ppCurrBlocksAt (sysStep (runTrace initState es)
          (Event.realloc old oldSz newSz (some p) bt now)).1 lb.pp_info_idx =
        ppCurrBlocksAt (runTrace initState es).1 lb.pp_info_idx ∧
      ppCurrBytesAt (sysStep (runTrace initState es)
          (Event.realloc old oldSz newSz (some p) bt now)).1 lb.pp_info_idx + oldSz =
        ppCurrBytesAt (runTrace initState es).1 lb.pp_info_idx + newSz ∧
      lookupK (liveOf (sysStep (runTrace initState es)
          (Event.realloc old oldSz newSz (some p) bt now)).1) p =
        some { pp_info_idx := lb.pp_info_idx, allocation_instant := now } ∧
      (old ≠ p → lookupK (liveOf (sysStep (runTrace initState es)
          (Event.realloc old oldSz newSz (some p) bt now)).1) old = none)) ∧
    (lookupK (liveOf (runTrace initState es).1) old = none →
      scrubPhase (sysStep (runTrace initState es)
          (Event.realloc old oldSz newSz (some p) bt now)).1 =
        scrubPhase (Alloc.alloc (runTrace initState es).1 newSz (some p) bt now).1 ∧
      (sysStep (runTrace initState es)
          (Event.realloc old oldSz newSz (some p) bt now)).2 =
        ghostStep (runTrace initState es).2 (Event.alloc newSz (some p) bt now)) := by
  have hinv0 := run_Inv es initState Inv_init hwf
  rcases hs : runTrace initState es with ⟨ph, sizes⟩
  rw [hs] at hinv0 hwfe
  obtain ⟨g, h, hph, hg, hinv⟩ := hinv0
  simp only at hph
  subst hph
  have hinv' : InvG g sizes h := hinv
  simp only [sysStep, stepPhase, ghostStep, liveOf, hg]
  simp only [WFEvent, liveOf, hg, Bool.and_eq_true, decide_eq_true_eq,
    Option.isNone_iff_eq_none] at hwfe
  obtain ⟨⟨⟨hposo, hposn⟩, hmtch⟩, hfresh⟩ := hwfe
  obtain ⟨gp, hpeak⟩ : ∃ gp,
      (if (Delta.new oldSz newSz).shrinking = true then
        g.check_for_global_peak else g) = gp := ⟨_, rfl⟩
  have hgp : gp.heap = some h ∧ InvG gp sizes h := by
    rw [← hpeak]
    by_cases hshr : (Delta.new oldSz newSz).shrinking = true
    · rw [if_pos hshr]
      exact InvG_check_peak g h sizes hg hinv'
    · rw [if_neg hshr]
      exact ⟨hg, hinv'⟩
  have htot : gp.total_blocks = g.total_blocks ∧ gp.total_bytes = g.total_bytes := by
    rw [← hpeak]
    by_cases hshr : (Delta.new oldSz newSz).shrinking = true
    · rw [if_pos hshr]
      exact ⟨(check_peak_fields g).2.1, (check_peak_fields g).2.2.1⟩
    · rw [if_neg hshr]
      exact ⟨rfl, rfl⟩
  rcases hlbo : lookupK h.live_blocks old with _ | lb
  · rcases hppu : gp.get_pp_info bt PpInfo.new_heap with ⟨idx, g1⟩
    obtain ⟨hg1, hinv1, hidx1⟩ := get_pp_info_facts gp h sizes bt hgp.1 hgp.2
    rw [hppu] at hg1 hinv1 hidx1
    have hg1' : g1.heap = some h := hg1
    have hinv1' : InvG g1 sizes h := hinv1
    have hidx1' : idx < g1.pp_infos.length := hidx1
    have hlookp : lookupK h.live_blocks p = none := by
      rw [← eraseK_eq_of_lookup_none hlbo]
      exact hfresh
    obtain ⟨h3, e_heap, einv, e_cby, e_cblk, e_max, e_tie, e_lt, e_tblk, e_tbyt⟩ :=
      alloc_chain_facts g1 h sizes p idx newSz now hg1' hinv1' hidx1' hposn hlookp
    have hstep : (Alloc.realloc (Phase.Running g) old oldSz newSz (some p) bt now).1
        = Phase.Running ((g1.record_block p idx now).update_counts_for_alloc idx newSz none now) := by
      rw [realloc_step_eq_untracked g gp g1 h h old oldSz newSz p idx now bt
        hg hpeak hgp.1 hlbo hppu]
    have hg1tot := get_pp_info_totals gp bt PpInfo.new_heap
    rw [hppu] at hg1tot
    have hg1tb : g1.total_blocks = gp.total_blocks := hg1tot.1
    have hg1ty : g1.total_bytes = gp.total_bytes := hg1tot.2
    refine ⟨?_, ?_, ?_, ?_⟩
    · rw [hstep]
      simp only [totalBlocksOf]
      rw [e_tblk, hg1tb, htot.1]
    · rw [hstep]
      simp only [totalBytesOf]
      rw [e_tbyt, hg1ty, htot.2]
    · intro lb0 hc
      simp at hc
    · intro _
      refine ⟨?_, trivial⟩
      have hlv : lookupK (liveOf (Phase.Running g)) old = none := by
        simp only [liveOf, hg]
        exact hlbo
      exact (realloc_untracked_scrub (Phase.Running g) old oldSz newSz p now bt hlv).1
  · rw [hlbo, beq_iff_eq] at hmtch
    obtain ⟨h3, e_heap, einv, e_cby, e_cblk, e_max, e_tie, e_lt, e_tblk, e_tbyt,
      e_live, e_pps⟩ :=
      realloc_chain_facts gp h sizes old oldSz newSz p now lb hgp.1 hgp.2
        hlbo hmtch hposn hfresh
    have hstep : (Alloc.realloc (Phase.Running g) old oldSz newSz (some p) bt now).1
        = Phase.Running (((gp.removeLiveBlock old).2.record_block p lb.pp_info_idx now).update_counts_for_alloc
            lb.pp_info_idx newSz (some (Delta.new oldSz newSz)) now) := by
      rw [realloc_step_eq_tracked g gp h h old oldSz newSz p now bt lb
        hg hpeak hgp.1 hlbo]
    obtain ⟨qj1, qj2, qj3, qj4⟩ := proj_running _ h3 e_heap
    obtain ⟨pj1, pj2, pj3, pj4⟩ := proj_running g h hg
    refine ⟨?_, ?_, ?_, ?_⟩
    · rw [hstep]
      simp only [totalBlocksOf]
      rw [e_tblk, htot.1]
    · rw [hstep]
      simp only [totalBytesOf]
      rw [e_tbyt, htot.2]
    · intro lb0 hc
      rw [Option.some_inj] at hc
      subst hc
      have hidxg : lb.pp_info_idx < g.pp_infos.length :=
        hinv'.live_idx (old, lb) (lookupK_mem hlbo)
      have hlen3 : lb.pp_info_idx <
          (((gp.removeLiveBlock old).2.record_block p lb.pp_info_idx now).update_counts_for_alloc
            lb.pp_info_idx newSz (some (Delta.new oldSz newSz)) now).pp_infos.length := by
        rw [e_pps, modifyAt_length, ← hpeak]
        by_cases hshr : (Delta.new oldSz newSz).shrinking = true
        · rw [if_pos hshr, (check_peak_fields g).2.2.2.2]
          exact hidxg
        · rw [if_neg hshr]
          exact hidxg
      obtain ⟨pp0, hpp0⟩ : ∃ pp0, g.pp_infos[lb.pp_info_idx]? = some pp0 :=
        ⟨g.pp_infos[lb.pp_info_idx], List.getElem?_eq_getElem hidxg⟩
      obtain ⟨hp0, hp0heap, o1, o2, _, _⟩ := hinv'.pp_inv lb.pp_info_idx pp0 hpp0
      obtain ⟨pp1, hpp1⟩ : ∃ pp1,
          (((gp.removeLiveBlock old).2.record_block p lb.pp_info_idx now).update_counts_for_alloc
            lb.pp_info_idx newSz (some (Delta.new oldSz newSz)) now).pp_infos[lb.pp_info_idx]?
          = some pp1 := ⟨_, List.getElem?_eq_getElem hlen3⟩
      obtain ⟨hp1, hp1heap, n1, n2, _, _⟩ := einv.pp_inv lb.pp_info_idx pp1 hpp1
      have hnotmem : p ∉ (eraseK h.live_blocks old).map Prod.fst :=
        (lookupK_eq_none_iff _ _).mp hfresh
      have hsplitB := @extract_ppBytes sizes _ _ _ lb.pp_info_idx
        hinv'.nodupKeys hlbo
      rw [if_pos rfl] at hsplitB
      have hsplitK := @extract_ppBlocks _ _ lb lb.pp_info_idx
        hinv'.nodupKeys hlbo
      rw [if_pos rfl] at hsplitK
      have hnewB : ppBytes (updateF sizes p newSz) h3.live_blocks lb.pp_info_idx
          = newSz + ppBytes sizes (eraseK h.live_blocks old) lb.pp_info_idx := by
        rw [e_live, ppBytes_cons, ppBytes_updateF_of_not_mem _ hnotmem]
        split_ifs with hcc
        · have hup : updateF sizes p newSz p = newSz := by simp [updateF]
          rw [hup]
        · exact absurd rfl hcc
      have hnewK : ppBlocks h3.live_blocks lb.pp_info_idx
          = 1 + ppBlocks (eraseK h.live_blocks old) lb.pp_info_idx := by
        rw [e_live, ppBlocks_cons]
        split_ifs with hcc
        · rfl
        · exact absurd rfl hcc
      refine ⟨?_, ?_, ?_, ?_, ?_, ?_⟩
      · rw [hstep, qj2, pj2, e_cblk]
      · rw [hstep, qj1, pj1]
        exact e_cby
      · rw [hstep]
        simp only [ppCurrBlocksAt, ppInfosOf, List.get?_eq_getElem?, hpp1, hpp0,
          ppCurrBlocks, hp1heap, hp0heap]
        rw [n2, o2, hnewK, hsplitK]
      · rw [hstep]
        simp only [ppCurrBytesAt, ppInfosOf, List.get?_eq_getElem?, hpp1, hpp0,
          ppCurrBytes, hp1heap, hp0heap]
        rw [n1, o1, hnewB, hsplitB, hmtch]
        omega
      · rw [hstep]
        simp only [liveOf, e_heap]
        rw [e_live]
        simp [lookupK]
      · intro hne
        rw [hstep]
        simp only [liveOf, e_heap]
        rw [e_live]
        simp only [lookupK]
        rw [if_neg (fun hc => hne hc.symm)]
        exact (lookupK_eq_none_iff _ _).mpr (not_mem_fst_eraseK h.live_blocks old)
    · intro hc
      simp at hc

/-- Witness for C3: a tracked realloc from 10 to 25 bytes of the single live
block shifts the global `curr_bytes` by the signed delta. -/
theorem claim_C3_witness :
    currBytesOf (sysStep (runTrace initState
        [Event.alloc 10 (some 100) ⟨[⟨1, 0⟩]⟩ 1])
      (Event.realloc 100 10 25 (some 200) ⟨[⟨2, 0⟩]⟩ 2)).1 + 10 =
      currBytesOf (runTrace initState
        [Event.alloc 10 (some 100) ⟨[⟨1, 0⟩]⟩ 1]).1 + 25 := by
  have h := (claim_C3_realloc_effects [Event.alloc 10 (some 100) ⟨[⟨1, 0⟩]⟩ 1]
      100 10 25 200 2 ⟨[⟨2, 0⟩]⟩ (by decide) (by decide)).2.2.1
      ⟨0, 1⟩ (by decide)
  exact h.2.1

end Dhat
